import Mathlib

/-!
# Verification of the `restore_joystick_xmls` reconciliation engine

Shallow embedding of the three Python programs of the repository:

* `bms_restore.py`        — file-tree restorer for Falcon BMS XML configs
* `dcs_restore.py`        — file-tree restorer for DCS `*.diff.lua` bindings
* `okb_update_directinput_guids.py` — document remapper for OpenKneeboard
  `DirectInput.json` files

Strings are modelled as `List Char` (`Str`), bytes of file contents likewise,
file systems as lists of file records, and Python dicts as ordered
association lists (insertion-ordered, as in CPython).  The cryptographic
content digest (`hashlib.sha256`) is modelled as an opaque parameter
`h : Str → Str` applied to the full content; the code only ever compares two
digests for equality.
-/

namespace RJX

abbrev Str := List Char

/-- Python whitespace characters recognised by `str.strip`, `str.split` and
the regex class `\s` (ASCII portion, which is all the repository's data
uses). -/
def isPySpace (c : Char) : Bool :=
  c = ' ' ∨ c = '\t' ∨ c = '\n' ∨ c = '\r' ∨ c = '\x0b' ∨ c = '\x0c'

/-- `str.strip()`: remove leading and trailing whitespace. -/
def pyStrip (s : Str) : Str :=
  ((s.dropWhile isPySpace).reverse.dropWhile isPySpace).reverse

/-- Characters admitted by the GUID body class `[0-9A-Fa-f-]` of
`GUID_FILENAME_RE` / `GUID_DIFF_RE`. -/
def isGuidChar (c : Char) : Bool :=
  c.isDigit ∨ ('a' ≤ c ∧ c ≤ 'f') ∨ ('A' ≤ c ∧ c ≤ 'F') ∨ c = '-'

def toLowerStr (s : Str) : Str := s.map Char.toLower

def toUpperStr (s : Str) : Str := s.map Char.toUpper

/-- `str.split(sep)` for a single-character separator, keeping empty
segments (CPython semantics). -/
def splitOnChar (c : Char) : Str → List Str
  | [] => [[]]
  | x :: xs =>
    if x = c then [] :: splitOnChar c xs
    else
      match splitOnChar c xs with
      | [] => [[x]]
      | s :: ss => (x :: s) :: ss

/-- `pathlib.PurePath.suffix` of a plain file name: the substring from the
last `'.'`, provided that dot is neither the first nor the last character. -/
def pySuffix (name : Str) : Str :=
  let r := name.reverse
  match r.findIdx? (fun c => c = '.') with
  | none => []
  | some k =>
    if k = 0 then []
    else if k = name.length - 1 then []
    else '.' :: (r.take k).reverse

/-- `pathlib.PurePath.stem` of a plain file name: the name with `pySuffix`
removed. -/
def pyStem (name : Str) : Str :=
  name.take (name.length - (pySuffix name).length)

/-- `pathlib.PurePath.suffixes` of a plain file name (CPython: empty for a
name ending in `'.'`, otherwise the dot-separated extensions of the name
with leading dots stripped). -/
def pySuffixes (name : Str) : List Str :=
  if name = [] then []
  else if name.getLast? = some '.' then []
  else
    let core := name.dropWhile (fun c => c = '.')
    ((splitOnChar '.' core).drop 1).map (fun s => '.' :: s)

/-- Last two elements of a list (used for `suffixes[-2:]`). -/
def lastTwo (l : List Str) : List Str := (l.reverse.take 2).reverse

/-!
## The GUID filename pattern

`GUID_FILENAME_RE = ^(?P<stem>.*)\s+\{[0-9A-Fa-f-]{36}\}\.xml$` (bms) and
`GUID_DIFF_RE = ^(?P<stem>.*)\s+\{[0-9A-Fa-f-]{36}\}\.diff\.lua$` (dcs).

Matching is decided from the end of the name: the name must end with the
literal suffix (`"}.xml"` resp. `"}.diff.lua"`) preceded by exactly 36
characters of the GUID class preceded by `'{'`; the remaining prefix `pre`
must end in at least one whitespace character (`\s+`) and, because `.` does
not match a newline, `pre` with its maximal whitespace suffix removed must be
free of `'\n'`.  The value of the (greedy) `stem` group, after the
`.strip()` that both callers apply, is `pyStrip pre`.
-/

/-- Core split: `name = pre ++ '{' :: g ++ sfx` with `g` a 36-character GUID
body.  `sfxRev` is the reversed literal suffix.  Returns `pre` on success. -/
def splitBraceGuid (sfxRev : Str) (name : Str) : Option Str :=
  let r := name.reverse
  if r.take sfxRev.length = sfxRev then
    let rest := r.drop sfxRev.length
    let g := rest.take 36
    let rest2 := rest.drop 36
    if g.length = 36 ∧ g.all isGuidChar then
      if rest2.take 1 = ['{'] then some (rest2.drop 1).reverse else none
    else none
  else none

/-- Full regex match.  On success returns the already-stripped stem group. -/
def guidStemMatch (sfxRev : Str) (name : Str) : Option Str :=
  match splitBraceGuid sfxRev name with
  | none => none
  | some pre =>
    let t := pre.reverse.takeWhile isPySpace
    let hd := (pre.reverse.dropWhile isPySpace).reverse
    if t ≠ [] ∧ ('\n' ∈ hd → False) then some (pyStrip hd) else none

/-- The literal suffix `"}.xml"` of `GUID_FILENAME_RE`. -/
def xmlSfx : Str := "\x7d.xml".data

/-- The literal suffix `"}.diff.lua"` of `GUID_DIFF_RE`. -/
def diffLuaSfx : Str := "\x7d.diff.lua".data

/-- `bms_restore.normalize_key`: stem group of `GUID_FILENAME_RE` stripped,
falling back to `Path(name).stem.strip()` when the pattern does not match. -/
def normalize_key (name : Str) : Str :=
  match guidStemMatch xmlSfx.reverse name with
  | some s => s
  | none => pyStrip (pyStem name)

/-- `dcs_restore.normalize_guid_filename`: stem group of `GUID_DIFF_RE`
stripped, falling back to the name *unchanged* when the pattern does not
match. -/
def normalize_guid_filename (name : Str) : Str :=
  match guidStemMatch diffLuaSfx.reverse name with
  | some s => s
  | none => name

/-!
## Declarative characterisation of the regex match

`MatchesBraceGuid sfx name s` states, purely in terms of a decomposition of
`name`, that `GUID_FILENAME_RE`-style matching succeeds (with literal suffix
`sfx`) and that the stripped stem group equals `s`.  The equivalence with the
executable parser `guidStemMatch` is proved below; it is what justifies the
parser as an embedding of the regex.
-/

def MatchesBraceGuid (sfx : Str) (name : Str) (s : Str) : Prop :=
  ∃ stem ws g, name = stem ++ ws ++ '{' :: (g ++ sfx) ∧
    ws ≠ [] ∧ (∀ c ∈ ws, isPySpace c) ∧
    g.length = 36 ∧ (∀ c ∈ g, isGuidChar c) ∧
    '\n' ∉ stem ∧ s = pyStrip stem

theorem dropWhile_append_of_all {p : Char → Bool} {a b : Str}
    (h : ∀ c ∈ a, p c) : (a ++ b).dropWhile p = b.dropWhile p := by
  induction a with
  | nil => rfl
  | cons x xs ih =>
    simp only [List.cons_append, List.dropWhile_cons, h x (by simp)]
    exact ih (fun c hc => h c (by simp [hc]))

theorem takeWhile_append_of_all {p : Char → Bool} {a b : Str}
    (h : ∀ c ∈ a, p c) : (a ++ b).takeWhile p = a ++ b.takeWhile p := by
  induction a with
  | nil => rfl
  | cons x xs ih =>
    simp only [List.cons_append, List.takeWhile_cons, h x (by simp)]
    simp [ih (fun c hc => h c (by simp [hc]))]

theorem dropWhile_eq_nil_of_all {p : Char → Bool} {a : Str}
    (h : ∀ c ∈ a, p c) : a.dropWhile p = [] := by
  have := dropWhile_append_of_all (b := []) h
  simpa using this

theorem dropWhile_append_split (p : Char → Bool) (x v : Str) :
    (x ++ v).dropWhile p =
      if x.dropWhile p = [] then v.dropWhile p else x.dropWhile p ++ v := by
  induction x with
  | nil => simp
  | cons y ys ih =>
    by_cases hy : p y
    · simpa [List.dropWhile_cons, hy] using ih
    · simp [List.dropWhile_cons, hy]

/-- Stripping ignores an all-whitespace suffix. -/
theorem pyStrip_append_all {v x : Str}
    (h : ∀ c ∈ v, isPySpace c) : pyStrip (x ++ v) = pyStrip x := by
  unfold pyStrip
  rw [dropWhile_append_split]
  by_cases hx : x.dropWhile isPySpace = []
  · rw [if_pos hx, hx, dropWhile_eq_nil_of_all h]
  · rw [if_neg hx, List.reverse_append,
      dropWhile_append_of_all (fun c hc => h c (List.mem_reverse.mp hc))]

theorem cons_of_take_one {l : Str} {c : Char} (h : l.take 1 = [c]) :
    l = c :: l.drop 1 := by
  cases l with
  | nil => simp at h
  | cons x xs => simp at h; simp [h]

theorem splitBraceGuid_some_iff {sfx name pre : Str} :
    splitBraceGuid sfx.reverse name = some pre ↔
      ∃ g, name = pre ++ '{' :: (g ++ sfx) ∧ g.length = 36 ∧
        (∀ c ∈ g, isGuidChar c) := by
  constructor
  · intro h
    unfold splitBraceGuid at h
    simp only at h
    by_cases h1 : name.reverse.take sfx.reverse.length = sfx.reverse
    · rw [if_pos h1] at h
      by_cases h2 :
          ((name.reverse.drop sfx.reverse.length).take 36).length = 36 ∧
          ((name.reverse.drop sfx.reverse.length).take 36).all isGuidChar = true
      · rw [if_pos h2] at h
        by_cases h3 :
            ((name.reverse.drop sfx.reverse.length).drop 36).take 1 = ['{']
        · rw [if_pos h3] at h
          injection h with hpre
          refine ⟨((name.reverse.drop sfx.reverse.length).take 36).reverse,
            ?_, by simpa using h2.1, ?_⟩
          · have hr : name.reverse =
                sfx.reverse ++ ((name.reverse.drop sfx.reverse.length).take 36 ++
                  ('{' :: ((name.reverse.drop sfx.reverse.length).drop 36).drop 1)) := by
              conv_lhs => rw [← List.take_append_drop sfx.reverse.length name.reverse]
              rw [h1]
              congr 1
              conv_lhs => rw [← List.take_append_drop 36
                (name.reverse.drop sfx.reverse.length)]
              congr 1
              exact cons_of_take_one h3
            have hname : name =
                (sfx.reverse ++ ((name.reverse.drop sfx.reverse.length).take 36 ++
                  ('{' :: ((name.reverse.drop sfx.reverse.length).drop 36).drop 1))).reverse := by
              conv_lhs => rw [← List.reverse_reverse name]
              rw [← hr]
            conv_lhs => rw [hname]
            rw [← hpre]
            simp [List.reverse_append, List.append_assoc]
          · intro c hc
            have := h2.2
            rw [List.all_eq_true] at this
            exact this c (List.mem_reverse.mp hc)
        · rw [if_neg h3] at h
          exact absurd h (by simp)
      · rw [if_neg h2] at h
        exact absurd h (by simp)
    · rw [if_neg h1] at h
      exact absurd h (by simp)
  · rintro ⟨g, hname, hlen, hg⟩
    have hr : name.reverse = sfx.reverse ++ (g.reverse ++ '{' :: pre.reverse) := by
      rw [hname]
      simp [List.reverse_append, List.reverse_cons]
    unfold splitBraceGuid
    simp only
    rw [hr]
    rw [List.take_left, List.drop_left]
    have hglen : g.reverse.length = 36 := by simpa using hlen
    rw [List.take_left' hglen, List.drop_left' hglen]
    have hgall : g.reverse.all isGuidChar = true := by
      rw [List.all_eq_true]
      intro c hc
      exact hg c (List.mem_reverse.mp hc)
    simp [hglen, hgall]

theorem mem_of_mem_dropWhile {p : Char → Bool} {c : Char} {l : Str}
    (h : c ∈ l.dropWhile p) : c ∈ l := by
  induction l with
  | nil => simp at h
  | cons x xs ih =>
    by_cases hx : p x
    · simp only [List.dropWhile_cons, hx, if_true] at h
      exact List.mem_cons_of_mem _ (ih h)
    · simpa [List.dropWhile_cons, hx] using h

theorem rev_take_drop_decomp (p : Char → Bool) (l : Str) :
    l = (l.reverse.dropWhile p).reverse ++ (l.reverse.takeWhile p).reverse := by
  conv_lhs => rw [← List.reverse_reverse l,
    ← List.takeWhile_append_dropWhile p l.reverse]
  rw [List.reverse_append]

theorem guidStemMatch_some_iff {sfx name s : Str} :
    guidStemMatch sfx.reverse name = some s ↔ MatchesBraceGuid sfx name s := by
  constructor
  · intro h
    unfold guidStemMatch at h
    cases hsp : splitBraceGuid sfx.reverse name with
    | none => rw [hsp] at h; exact absurd h (by simp)
    | some pre =>
      rw [hsp] at h
      simp only at h
      by_cases hguard : pre.reverse.takeWhile isPySpace ≠ [] ∧
          ('\n' ∈ ((pre.reverse.dropWhile isPySpace).reverse) → False)
      · rw [if_pos hguard] at h
        injection h with hs
        obtain ⟨g, hname, hlen, hg⟩ := splitBraceGuid_some_iff.mp hsp
        refine ⟨(pre.reverse.dropWhile isPySpace).reverse,
          (pre.reverse.takeWhile isPySpace).reverse, g, ?_, ?_, ?_, hlen, hg,
          fun hmem => hguard.2 hmem, hs.symm⟩
        · rw [hname]
          conv_lhs => rw [rev_take_drop_decomp isPySpace pre]
        · intro hnil
          exact hguard.1 (by simpa using congrArg List.reverse hnil)
        · intro c hc
          exact List.mem_takeWhile_imp (List.mem_reverse.mp hc)
      · rw [if_neg hguard] at h
        exact absurd h (by simp)
  · rintro ⟨stem, ws, g, hname, hws, hwsp, hlen, hg, hstem, hs⟩
    have hsp : splitBraceGuid sfx.reverse name = some (stem ++ ws) := by
      rw [splitBraceGuid_some_iff]
      exact ⟨g, by rw [hname], hlen, hg⟩
    unfold guidStemMatch
    rw [hsp]
    simp only
    have hrev : (stem ++ ws).reverse = ws.reverse ++ stem.reverse := by
      simp
    have htake : (stem ++ ws).reverse.takeWhile isPySpace =
        ws.reverse ++ stem.reverse.takeWhile isPySpace := by
      rw [hrev]
      exact takeWhile_append_of_all
        (fun c hc => hwsp c (List.mem_reverse.mp hc))
    have hdrop : (stem ++ ws).reverse.dropWhile isPySpace =
        stem.reverse.dropWhile isPySpace := by
      rw [hrev]
      exact dropWhile_append_of_all
        (fun c hc => hwsp c (List.mem_reverse.mp hc))
    have hguard : (stem ++ ws).reverse.takeWhile isPySpace ≠ [] ∧
        ('\n' ∈ (((stem ++ ws).reverse.dropWhile isPySpace).reverse) → False) := by
      constructor
      · rw [htake]
        intro hnil
        rcases List.append_eq_nil.mp hnil with ⟨h1, _⟩
        exact hws (by simpa using congrArg List.reverse h1)
      · rw [hdrop]
        intro hmem
        exact hstem (List.mem_reverse.mp
          (mem_of_mem_dropWhile (List.mem_reverse.mp hmem)))
    rw [if_pos hguard]
    rw [hdrop, hs]
    conv_rhs => rw [rev_take_drop_decomp isPySpace stem]
    rw [pyStrip_append_all
      (fun c hc => List.mem_takeWhile_imp (List.mem_reverse.mp hc))]

/-- Claim C4, counterexample.  The claim asserts that *both* normalizers
fall back to the extension-stripped, trimmed stem on a non-matching name.
`dcs_restore.normalize_guid_filename` does not: on the non-matching name
`"foo.diff.lua"` it returns the name unchanged (`"foo.diff.lua"`), whereas
the claimed fallback `Path(name).stem.strip()` would be `"foo.diff"`. -/
theorem claim_C4_counterexample :
    (∀ s, ¬ MatchesBraceGuid diffLuaSfx ("foo.diff.lua".data) s) ∧
    normalize_guid_filename ("foo.diff.lua".data) ≠
      pyStrip (pyStem ("foo.diff.lua".data)) := by
  constructor
  · intro s hs
    have h := guidStemMatch_some_iff.mpr hs
    rw [show guidStemMatch diffLuaSfx.reverse ("foo.diff.lua".data) = none from
      by decide] at h
    exact Option.noConfusion h
  · decide

/-- Claim C4, amended.  For every filename: `bms_restore.normalize_key`
returns the trimmed stem before the brace when the name matches
`GUID_FILENAME_RE` (`<stem> {<36-char GUID>}.xml`) and otherwise the
filename with its final extension removed, trimmed; while
`dcs_restore.normalize_guid_filename` returns the trimmed stem when the
name matches `GUID_DIFF_RE` (`<stem> {<36-char GUID>}.diff.lua`) but
returns the filename *unchanged* (not extension-stripped) otherwise. -/
theorem claim_C4 (name s : Str) :
    (MatchesBraceGuid xmlSfx name s → normalize_key name = s) ∧
    ((∀ u, ¬ MatchesBraceGuid xmlSfx name u) →
      normalize_key name = pyStrip (pyStem name)) ∧
    (MatchesBraceGuid diffLuaSfx name s → normalize_guid_filename name = s) ∧
    ((∀ u, ¬ MatchesBraceGuid diffLuaSfx name u) →
      normalize_guid_filename name = name) := by
  refine ⟨?_, ?_, ?_, ?_⟩
  · intro hm
    unfold normalize_key
    rw [guidStemMatch_some_iff.mpr hm]
  · intro hnm
    unfold normalize_key
    cases hm : guidStemMatch xmlSfx.reverse name with
    | none => rfl
    | some u => exact absurd (guidStemMatch_some_iff.mp hm) (hnm u)
  · intro hm
    unfold normalize_guid_filename
    rw [guidStemMatch_some_iff.mpr hm]
  · intro hnm
    unfold normalize_guid_filename
    cases hm : guidStemMatch diffLuaSfx.reverse name with
    | none => rfl
    | some u => exact absurd (guidStemMatch_some_iff.mp hm) (hnm u)

/-- Witness for C4's amended theorem at concrete inputs: a matching bms
name normalizes to its stem, and a non-matching dcs name is returned
unchanged. -/
theorem claim_C4_witness :
    normalize_key ("A {11111111-1111-1111-1111-111111111111}.xml".data) =
      "A".data ∧
    normalize_guid_filename ("foo.diff.lua".data) = "foo.diff.lua".data := by
  constructor
  · exact (claim_C4 ("A {11111111-1111-1111-1111-111111111111}.xml".data)
      ("A".data)).1
      ⟨"A".data, " ".data, "11111111-1111-1111-1111-111111111111".data,
        by decide, by decide, by decide, by decide, by decide, by decide,
        by decide⟩
  · exact (claim_C4 ("foo.diff.lua".data) ("foo.diff.lua".data)).2.2.2
      (fun u hu => by
        have h := guidStemMatch_some_iff.mpr hu
        rw [show guidStemMatch diffLuaSfx.reverse ("foo.diff.lua".data) = none
          from by decide] at h
        exact Option.noConfusion h)

/-!
## Model of `bms_restore.py`

A directory is a list of file records in enumeration order
(`sorted(folder.iterdir())`); a missing directory is `none`.  File contents
are byte strings; `mtime`s are naturals, with the current wall clock
threaded through the run (every write stamps the file with the current
clock value and advances it, reflecting that write times strictly
increase and lie after all pre-existing mtimes).

`restore_from_backups` keeps exception behaviour explicit: `err` is the
uncaught Python exception, if any, and the state at that point is the state
in which the exception left the file system (the loop body has no
`except`, so a raised exception aborts the whole loop; only the
`finally` temp-file cleanup runs).  I/O failure is injected through `bad`,
the set of file names whose `sha256_file` read raises `OSError`.
-/

structure File where
  name : Str
  content : Str
  mtime : Nat
deriving DecidableEq, Repr, Inhabited

inductive RunErr
  | dirMissing
  | archiveFailed
  | ioError (name : Str)
deriving DecidableEq, Repr

/-- `p.suffix.lower() == ".xml"`. -/
def isXmlName (name : Str) : Bool := toLowerStr (pySuffix name) = ".xml".data

/-- `bms_restore.list_xml_files`: empty for a missing folder, otherwise the
`.xml` files in enumeration order. -/
def list_xml_files (d : Option (List File)) : List File :=
  (d.getD []).filter (fun f => isXmlName f.name)

/-- `idx.setdefault(k, []).append(n)` on an insertion-ordered dict. -/
def indexInsert (idx : List (Str × List Str)) (k : Str) (n : Str) :
    List (Str × List Str) :=
  match idx with
  | [] => [(k, [n])]
  | (k', ns) :: rest =>
    if k' = k then (k', ns ++ [n]) :: rest
    else (k', ns) :: indexInsert rest k n

/-- `bms_restore.build_index`: key → file names sharing that key. -/
def build_index (d : Option (List File)) : List (Str × List Str) :=
  (list_xml_files d).foldl
    (fun idx f => indexInsert idx (normalize_key f.name) f.name) []

/-- Look a key up in an index (`dict.get(key, [])`). -/
def idxGet (idx : List (Str × List Str)) (k : Str) : List Str :=
  match idx with
  | [] => []
  | e :: rest => if e.1 = k then e.2 else idxGet rest k

def fsFind (fs : List File) (n : Str) : Option File :=
  fs.find? (fun f => f.name = n)

def contentOf (fs : List File) (n : Str) : Str :=
  ((fsFind fs n).map File.content).getD []

def mtimeOf (fs : List File) (n : Str) : Nat :=
  ((fsFind fs n).map File.mtime).getD 0

/-- `bms_restore.choose_target` / `dcs_restore.choose_target` on names:
the most recently modified candidate, the first one on ties (Python `max`
keeps the first maximal element). -/
def choose_target (fs : List File) (ns : List Str) : Str :=
  match ns with
  | [] => []
  | n :: rest =>
    rest.foldl (fun best m => if mtimeOf fs best < mtimeOf fs m then m else best) n

/-- In-place content replacement: the net effect of the temp-write +
`os.replace` pair on the directory (name kept, content and mtime new). -/
def fsUpdate (fs : List File) (n : Str) (c : Str) (m : Nat) : List File :=
  fs.map (fun f => if f.name = n then ⟨f.name, c, m⟩ else f)

inductive BDecision
  | missD (key : Str)
  | copiedD (name : Str)
  | identicalD (name : Str)
  | restoredD (name : Str)
deriving DecidableEq, Repr

structure BmsSt where
  files : List File
  clock : Nat
  restored : Nat
  identical : Nat
  missing : Nat
  decisions : List BDecision
  err : Option RunErr
deriving DecidableEq, Repr

def bmsInit (fs : List File) (clock : Nat) : BmsSt :=
  ⟨fs, clock, 0, 0, 0, [], none⟩

/-- One iteration of the `for key, backup_files in backup_index.items()`
loop of `restore_from_backups`.  `bfs` is the (immutable) backup directory,
`lIdx` the live index built before the loop; the live directory itself is
threaded through the state because `choose_target` stats and `sha256_file`
reads the current file system. -/
def bmsStep (h : Str → Str) (bad : List Str) (cim : Bool) (bfs : List File)
    (lIdx : List (Str × List Str)) (st : BmsSt) (entry : Str × List Str) :
    BmsSt :=
  let bname := choose_target bfs entry.2
  match idxGet lIdx entry.1 with
  | [] =>
    let st' := { st with missing := st.missing + 1 }
    if cim then
      { st' with
        files := st'.files ++ [⟨bname, contentOf bfs bname, mtimeOf bfs bname⟩],
        decisions := st'.decisions ++ [.copiedD bname] }
    else
      { st' with decisions := st'.decisions ++ [.missD entry.1] }
  | t0 :: ts =>
    let t := choose_target st.files (t0 :: ts)
    if bname ∈ bad then { st with err := some (.ioError bname) }
    else if t ∈ bad then { st with err := some (.ioError t) }
    else if h (contentOf bfs bname) = h (contentOf st.files t) then
      { st with identical := st.identical + 1,
                decisions := st.decisions ++ [.identicalD t] }
    else
      { st with files := fsUpdate st.files t (contentOf bfs bname) st.clock,
                clock := st.clock + 1,
                restored := st.restored + 1,
                decisions := st.decisions ++ [.restoredD t] }

/-- The whole per-key loop; a raised (uncaught) exception stops it. -/
def bmsRun (h : Str → Str) (bad : List Str) (cim : Bool) (bfs : List File)
    (lIdx : List (Str × List Str)) (entries : List (Str × List Str))
    (st : BmsSt) : BmsSt :=
  entries.foldl
    (fun s e => if s.err.isSome then s else bmsStep h bad cim bfs lIdx s e) st

/-- `bms_restore.restore_from_backups`: a missing backup dir warns and
returns, a missing live dir raises `FileNotFoundError`, otherwise the
per-key loop runs over the backup index. -/
def restore_from_backups (h : Str → Str) (bad : List Str) (cim : Bool)
    (backupDir bmsDir : Option (List File)) (clock : Nat) : BmsSt :=
  match backupDir with
  | none => bmsInit (bmsDir.getD []) clock
  | some bdir =>
    match bmsDir with
    | none => { bmsInit [] clock with err := some .dirMissing }
    | some ldir =>
      bmsRun h bad cim bdir (build_index (some ldir))
        (build_index (some bdir)) (bmsInit ldir clock)

/-!
## The AtomicMutator

Both restorers replace content through the same idiom:

```
tmp = target.with_suffix(target.suffix + ".tmp")
try:
    shutil.copyfile(backup_file, tmp)
    os.replace(tmp, target)
finally:
    if tmp.exists():
        try: tmp.unlink()
        except OSError: pass
```

`with_suffix(target.suffix + ".tmp")` strips the final suffix and appends
it again followed by `".tmp"`, so the temporary is always `name + ".tmp"`
in the same directory.  The model makes each file-system step explicit
(create/overwrite `tmp`, rename `tmp` over `target`, conditional unlink in
`finally`) and injects failure either during the `copyfile` (a partial
`tmp` exists) or between `copyfile` and `os.replace`.
-/

def tmpNameOf (n : Str) : Str := n ++ ".tmp".data

/-- Create-or-overwrite a file (`open(path, "wb")` semantics). -/
def fsWrite (fs : List File) (n c : Str) (m : Nat) : List File :=
  if (fsFind fs n).isSome then fsUpdate fs n c m else fs ++ [⟨n, c, m⟩]

/-- `unlink` / the removal half of a rename. -/
def fsRemove (fs : List File) (n : Str) : List File :=
  fs.filter (fun f => f.name ≠ n)

/-- `os.replace(src, dst)`: atomically move `src` over `dst`, keeping the
moved file's attributes. -/
def fsRename (fs : List File) (src dst : Str) : List File :=
  match fsFind fs src with
  | none => fs
  | some f => fsWrite (fsRemove fs src) dst f.content f.mtime

inductive WriteOutcome
  | ok
  | failDuringWrite (written : Str)
  | failBeforeRename
deriving DecidableEq, Repr

/-- The temp-write / atomic-rename / `finally`-cleanup sequence, with an
injected failure point.  Returns the resulting directory, the advanced
clock, and whether an exception is propagating. -/
def atomic_replace (fs : List File) (target newContent : Str) (clock : Nat)
    (outcome : WriteOutcome) : List File × Nat × Bool :=
  let tmp := tmpNameOf target
  match outcome with
  | .ok =>
    let fs1 := fsWrite fs tmp newContent clock
    let fs2 := fsRename fs1 tmp target
    (if (fsFind fs2 tmp).isSome then fsRemove fs2 tmp else fs2, clock + 1, false)
  | .failDuringWrite written =>
    let fs1 := fsWrite fs tmp written clock
    (if (fsFind fs1 tmp).isSome then fsRemove fs1 tmp else fs1, clock + 1, true)
  | .failBeforeRename =>
    let fs1 := fsWrite fs tmp newContent clock
    (if (fsFind fs1 tmp).isSome then fsRemove fs1 tmp else fs1, clock + 1, true)

theorem tmpNameOf_ne (n : Str) : tmpNameOf n ≠ n := by
  intro h
  have := congrArg List.length h
  simp [tmpNameOf] at this

theorem fsFind_eq_none_iff {fs : List File} {n : Str} :
    fsFind fs n = none ↔ ∀ f ∈ fs, f.name ≠ n := by
  unfold fsFind
  rw [List.find?_eq_none]
  constructor
  · intro h f hf
    have := h f hf
    simpa using this
  · intro h f hf
    simpa using h f hf

theorem fsRemove_eq_self {fs : List File} {n : Str}
    (h : fsFind fs n = none) : fsRemove fs n = fs := by
  unfold fsRemove
  rw [List.filter_eq_self]
  intro f hf
  simpa using fsFind_eq_none_iff.mp h f hf

theorem fsFind_append_none {fs : List File} {n : Str} (g : File)
    (h : fsFind fs n = none) (hg : g.name = n) :
    fsFind (fs ++ [g]) n = some g := by
  unfold fsFind at h ⊢
  rw [List.find?_append, h]
  simp [hg]

theorem fsRemove_append_single (fs : List File) (g : File)
    (h : fsFind fs g.name = none) : fsRemove (fs ++ [g]) g.name = fs := by
  unfold fsRemove
  rw [List.filter_append, List.filter_eq_self.mpr
    (fun f hf => by simpa using fsFind_eq_none_iff.mp h f hf)]
  simp

theorem fsFind_fsUpdate_other {fs : List File} {n t : Str} {c : Str} {m : Nat}
    (h : fsFind fs n = none) : fsFind (fsUpdate fs t c m) n = none := by
  rw [fsFind_eq_none_iff] at h ⊢
  intro f hf
  unfold fsUpdate at hf
  obtain ⟨f₀, hf₀, hmap⟩ := List.mem_map.mp hf
  by_cases ht : f₀.name = t
  · simp only [ht, if_pos rfl] at hmap
    rw [← hmap]
    simpa using ht ▸ h f₀ hf₀
  · simp only [if_neg ht] at hmap
    exact hmap ▸ h f₀ hf₀

/-- Claim C2: content replacement writes the new bytes to the sibling
temporary `name + ".tmp"` and renames it over the target; a failure
injected during the temp write or between the temp write and the rename
leaves the directory exactly as it was (target bytes untouched, no
temporary left behind), and a successful replacement is the in-place
update of the target's content and mtime, again leaving no temporary. -/
theorem claim_C2 (fs : List File) (target newContent : Str) (clock : Nat)
    (htmp : fsFind fs (tmpNameOf target) = none)
    (htgt : (fsFind fs target).isSome) :
    atomic_replace fs target newContent clock .failBeforeRename =
      (fs, clock + 1, true) ∧
    (∀ w, atomic_replace fs target newContent clock (.failDuringWrite w) =
      (fs, clock + 1, true)) ∧
    atomic_replace fs target newContent clock .ok =
      (fsUpdate fs target newContent clock, clock + 1, false) ∧
    fsFind (fsUpdate fs target newContent clock) (tmpNameOf target) = none := by
  have hw : ∀ c : Str, fsWrite fs (tmpNameOf target) c clock =
      fs ++ [⟨tmpNameOf target, c, clock⟩] := by
    intro c
    unfold fsWrite
    rw [htmp]
    rfl
  have hfind1 : ∀ c : Str, fsFind (fs ++ [⟨tmpNameOf target, c, clock⟩])
      (tmpNameOf target) = some ⟨tmpNameOf target, c, clock⟩ :=
    fun c => fsFind_append_none _ htmp rfl
  have hrm : ∀ c : Str, fsRemove (fs ++ [⟨tmpNameOf target, c, clock⟩])
      (tmpNameOf target) = fs :=
    fun c => fsRemove_append_single fs ⟨tmpNameOf target, c, clock⟩ htmp
  refine ⟨?_, ?_, ?_, fsFind_fsUpdate_other htmp⟩
  · unfold atomic_replace
    simp only [hw, hfind1, hrm, Option.isSome_some, if_true]
  · intro w
    unfold atomic_replace
    simp only [hw, hfind1, hrm, Option.isSome_some, if_true]
  · unfold atomic_replace
    simp only [hw]
    have hren : fsRename (fs ++ [⟨tmpNameOf target, newContent, clock⟩])
        (tmpNameOf target) target = fsUpdate fs target newContent clock := by
      unfold fsRename
      rw [hfind1, hrm]
      simp [fsWrite, htgt]
    rw [hren, fsFind_fsUpdate_other htmp]
    simp

/-!
## Per-key errors abort the pass (claim C3)

`restore_from_backups` has no `except` clause anywhere: an `OSError`
raised while hashing (or any other per-key I/O failure) unwinds through
the `for` loop and out of the function.  Only the `finally` temp-file
cleanup runs — and at the hashing point no temp file exists yet.
-/

theorem bmsRun_halt (h : Str → Str) (bad : List Str) (cim : Bool)
    (bfs : List File) (lIdx : List (Str × List Str))
    (entries : List (Str × List Str)) (st : BmsSt) (he : st.err.isSome) :
    bmsRun h bad cim bfs lIdx entries st = st := by
  induction entries with
  | nil => rfl
  | cons e es ih =>
    unfold bmsRun
    rw [List.foldl_cons, if_pos he]
    exact ih

theorem bmsRun_append (h : Str → Str) (bad : List Str) (cim : Bool)
    (bfs : List File) (lIdx : List (Str × List Str))
    (l₁ l₂ : List (Str × List Str)) (st : BmsSt) :
    bmsRun h bad cim bfs lIdx (l₁ ++ l₂) st =
      bmsRun h bad cim bfs lIdx l₂ (bmsRun h bad cim bfs lIdx l₁ st) := by
  unfold bmsRun
  exact List.foldl_append _ _ _ _

/-- Witness for C2 at a concrete directory. -/
theorem claim_C2_witness :
    atomic_replace [⟨"a.xml".data, "old".data, 3⟩] ("a.xml".data)
        ("new".data) 7 .failBeforeRename =
      ([⟨"a.xml".data, "old".data, 3⟩], 8, true) ∧
    atomic_replace [⟨"a.xml".data, "old".data, 3⟩] ("a.xml".data)
        ("new".data) 7 .ok =
      (fsUpdate [⟨"a.xml".data, "old".data, 3⟩] ("a.xml".data)
        ("new".data) 7, 8, false) :=
  have h := claim_C2 [⟨"a.xml".data, "old".data, 3⟩] ("a.xml".data)
    ("new".data) 7 (by decide) (by decide)
  ⟨h.1, h.2.2.1⟩

/-!
## Model of `okb_update_directinput_guids.py`

The JSON documents are modelled at the granularity the script inspects:
the top-level `"Devices"` value is an insertion-ordered dict from GUID
keys to entries; an entry is either not a dict (`other`) or a dict with
optional string fields `Kind`, `Name` and `ID` plus an opaque pass-through
payload.  A file whose text fails `json.loads`, or whose `"Devices"` value
is not a dict, is `invalidJson` / `devicesNotDict`.  The enumerated
device map (`enumerate_directinput_devices`) is an association list
`(Kind, normalized Name) → list of instance GUID strings`, read-only
input to the run.
-/

/-- `str.split()`: words separated by whitespace runs (no empties). -/
def wordsAux : Str → Str → List Str
  | [], acc => if acc = [] then [] else [acc.reverse]
  | c :: cs, acc =>
    if isPySpace c then
      if acc = [] then wordsAux cs [] else acc.reverse :: wordsAux cs []
    else wordsAux cs (c :: acc)

def pySplitWs (s : Str) : List Str := wordsAux s []

def joinSpace : List Str → Str
  | [] => []
  | [w] => w
  | w :: ws => w ++ ' ' :: joinSpace ws

/-- `okb.normalize_name`: collapse whitespace runs to single spaces and
casefold (modelled as lower-casing; identical on the ASCII names in play). -/
def normalize_name (s : Str) : Str := toLowerStr (joinSpace (pySplitWs s))

inductive JEntry
  | other (tag : Nat)
  | obj (kind name id' : Option Str) (payload : Nat)
deriving DecidableEq, Repr, Inhabited

/-- Python falsiness of an optional string (`not kind`): missing or empty. -/
def falsyOpt : Option Str → Bool
  | none => true
  | some s => s = []

/-- `device_map.get(key)`. -/
def dmGet (dm : List ((Str × Str) × List Str)) (k : Str × Str) :
    Option (List Str) :=
  (dm.find? (fun e => e.1 = k)).map (fun e => e.2)

/-- Python dict assignment `d[k] = v`: overwrite in place if the key
exists (keeping its position), else append. -/
def dinsert (d : List (Str × JEntry)) (k : Str) (v : JEntry) :
    List (Str × JEntry) :=
  if (d.find? (fun e => e.1 = k)).isSome then
    d.map (fun e => if e.1 = k then (k, v) else e)
  else d ++ [(k, v)]

structure Change where
  kind : Str
  name : Str
  fromKey : Str
  fromId : Str
  toG : Str
deriving DecidableEq, Repr, Inhabited

structure OkbAcc where
  nd : List (Str × JEntry)
  changes : List Change
deriving DecidableEq, Repr

/-- One iteration of the `for old_guid, entry in devices.items()` loop of
`build_plan_for_file`. -/
def okbStep (dm : List ((Str × Str) × List Str)) (acc : OkbAcc)
    (kv : Str × JEntry) : OkbAcc :=
  match kv.2 with
  | .other t => { acc with nd := dinsert acc.nd kv.1 (.other t) }
  | .obj kind name id' payload =>
    if falsyOpt kind ∨ falsyOpt name then
      { acc with nd := dinsert acc.nd kv.1 (.obj kind name id' payload) }
    else
      match dmGet dm (kind.getD [], normalize_name (name.getD [])) with
      | none =>
        { acc with nd := dinsert acc.nd kv.1 (.obj kind name id' payload) }
      | some [] =>
        { acc with nd := dinsert acc.nd kv.1 (.obj kind name id' payload) }
      | some (g :: _) =>
        let oldKeyU := toUpperStr kv.1
        let oldIdU := toUpperStr (id'.getD kv.1)
        { nd := dinsert acc.nd g (.obj kind name (some g) payload),
          changes :=
            if oldKeyU ≠ g ∨ oldIdU ≠ g then
              acc.changes ++ [⟨kind.getD [], name.getD [], oldKeyU, oldIdU, g⟩]
            else acc.changes }

def processDevices (dm : List ((Str × Str) × List Str))
    (devs : List (Str × JEntry)) : OkbAcc :=
  devs.foldl (okbStep dm) ⟨[], []⟩

inductive OkbDoc
  | invalidJson (tag : Nat)
  | devicesNotDict (tag : Nat)
  | doc (devices : List (Str × JEntry)) (rest : Nat)
deriving DecidableEq, Repr, Inhabited

structure OkbPlan where
  changes : List Change
  newDoc : OkbDoc
deriving DecidableEq, Repr, Inhabited

/-- `okb.build_plan_for_file`: `None` on unparseable JSON, on a
non-dict `"Devices"` value, and when no changes are needed. -/
def build_plan_for_file (dm : List ((Str × Str) × List Str)) (d : OkbDoc) :
    Option OkbPlan :=
  match d with
  | .invalidJson _ => none
  | .devicesNotDict _ => none
  | .doc devs rest =>
    let acc := processDevices dm devs
    if acc.changes = [] then none
    else some ⟨acc.changes, .doc acc.nd rest⟩

inductive Event
  | archived
  | replacedE (name : Str)
  | copiedE (parent : List Str) (name : Str)
  | wroteDoc (name : Str)
deriving DecidableEq, Repr

structure OkbMainRes where
  trace : List Event
  zipEntries : List Str
  outFiles : List (Str × OkbDoc)
  err : Option RunErr
deriving DecidableEq, Repr

def okbPlans (dm : List ((Str × Str) × List Str))
    (files : List (Str × OkbDoc)) : List (Str × OkbPlan) :=
  files.filterMap
    (fun f => (build_plan_for_file dm f.2).map (fun pl => (f.1, pl)))

def okbApply (plans : List (Str × OkbPlan)) (files : List (Str × OkbDoc)) :
    List (Str × OkbDoc) :=
  files.map (fun f =>
    match plans.find? (fun p => p.1 = f.1) with
    | some p => (f.1, p.2.newDoc)
    | none => f)

/-- `okb.main` after device enumeration: build all plans; if none, stop;
otherwise write the single zip backup of exactly the files that will be
changed (also in dry-run), then — in replace mode only — rewrite those
files.  `zipOk = false` injects an archive-write failure, which
propagates before any document is written. -/
def okb_main (dm : List ((Str × Str) × List Str))
    (files : List (Str × OkbDoc)) (dry zipOk : Bool) : OkbMainRes :=
  match okbPlans dm files with
  | [] => ⟨[], [], files, none⟩
  | p :: ps =>
    match zipOk, dry with
    | false, _ => ⟨[], [], files, some .archiveFailed⟩
    | true, true => ⟨[.archived], (p :: ps).map (fun q => q.1), files, none⟩
    | true, false =>
      ⟨.archived :: (p :: ps).map (fun q => Event.wroteDoc q.1),
       (p :: ps).map (fun q => q.1), okbApply (p :: ps) files, none⟩

theorem mem_eq_of_nodup_keys {α β : Type} {l : List (α × β)}
    (h : (l.map Prod.fst).Nodup) {x y : α × β}
    (hx : x ∈ l) (hy : y ∈ l) (hxy : x.1 = y.1) : x = y := by
  induction l with
  | nil => simp at hx
  | cons a l' ih =>
    simp only [List.map_cons, List.nodup_cons] at h
    rcases List.mem_cons.mp hx with rfl | hx' <;>
      rcases List.mem_cons.mp hy with rfl | hy'
    · rfl
    · exfalso
      apply h.1
      have hm : y.1 ∈ l'.map Prod.fst := List.mem_map_of_mem Prod.fst hy'
      rwa [← hxy] at hm
    · exfalso
      apply h.1
      have hm : x.1 ∈ l'.map Prod.fst := List.mem_map_of_mem Prod.fst hx'
      rwa [hxy] at hm
    · exact ih h.2 hx' hy'

/-- Names of planful files: membership characterisation. -/
theorem mem_okbPlans_map {dm : List ((Str × Str) × List Str)}
    {files : List (Str × OkbDoc)} {nm : Str} :
    nm ∈ (okbPlans dm files).map Prod.fst →
      ∃ f ∈ files, f.1 = nm ∧ (build_plan_for_file dm f.2).isSome := by
  intro h
  obtain ⟨p, hp, hfst⟩ := List.mem_map.mp h
  obtain ⟨f, hf, hfp⟩ := List.mem_filterMap.mp hp
  cases hbp : build_plan_for_file dm f.2 with
  | none => rw [hbp] at hfp; exact Option.noConfusion hfp
  | some pl =>
    rw [hbp] at hfp
    simp only [Option.map_some', Option.some.injEq] at hfp
    exact ⟨f, hf, by rw [← hfst, ← hfp], by rw [hbp]; rfl⟩

/-- Claim C9: a `DirectInput.json` whose text is not valid JSON, or whose
top-level `"Devices"` value is not a mapping, yields no plan; such a file
is never an entry of the snapshot archive and is never rewritten, in
dry-run or replace mode (its document passes through to the output
unchanged). -/
theorem claim_C9 (dm : List ((Str × Str) × List Str))
    (files : List (Str × OkbDoc)) (dry zipOk : Bool) (nm : Str) (d : OkbDoc)
    (t : Nat) (hbadDoc : d = OkbDoc.invalidJson t ∨ d = OkbDoc.devicesNotDict t)
    (hnd : (files.map Prod.fst).Nodup) (hmem : (nm, d) ∈ files) :
    build_plan_for_file dm d = none ∧
    nm ∉ (okb_main dm files dry zipOk).zipEntries ∧
    Event.wroteDoc nm ∉ (okb_main dm files dry zipOk).trace ∧
    (nm, d) ∈ (okb_main dm files dry zipOk).outFiles := by
  have hplan : build_plan_for_file dm d = none := by
    rcases hbadDoc with rfl | rfl <;> rfl
  have hnotin : nm ∉ (okbPlans dm files).map Prod.fst := by
    intro hc
    obtain ⟨f, hf, hfnm, hfsome⟩ := mem_okbPlans_map hc
    have : f = (nm, d) := mem_eq_of_nodup_keys hnd hf hmem hfnm
    rw [this] at hfsome
    simp only [hplan] at hfsome
    exact absurd hfsome (by simp)
  have happly : (nm, d) ∈ okbApply (okbPlans dm files) files := by
    have hfind : (okbPlans dm files).find? (fun p => p.1 = nm) = none := by
      rw [List.find?_eq_none]
      intro p hp hpe
      exact hnotin (by
        simp only [decide_eq_true_eq] at hpe
        exact hpe ▸ List.mem_map_of_mem Prod.fst hp)
    unfold okbApply
    have : (fun f : Str × OkbDoc =>
        match (okbPlans dm files).find? (fun p => p.1 = f.1) with
        | some p => (f.1, p.2.newDoc)
        | none => f) (nm, d) = (nm, d) := by
      simp only [hfind]
    exact this ▸ List.mem_map_of_mem _ hmem
  unfold okb_main
  cases hpl : okbPlans dm files with
  | nil => exact ⟨hplan, by simp, by simp, hmem⟩
  | cons p ps =>
    rw [hpl] at hnotin happly
    cases zipOk with
    | false => exact ⟨hplan, by simp, by simp, hmem⟩
    | true =>
      cases dry with
      | true => exact ⟨hplan, by simpa using hnotin, by simp, hmem⟩
      | false =>
        refine ⟨hplan, by simpa using hnotin, ?_, happly⟩
        intro hc
        rcases List.mem_cons.mp hc with h | h
        · exact Event.noConfusion h
        · obtain ⟨x, hx, hxe⟩ := List.mem_map.mp h
          have hx1 : x.1 = nm := by injection hxe
          exact hnotin (hx1 ▸ List.mem_map_of_mem Prod.fst hx)

/-- Witness for C9 at a concrete input: one unparseable file next to a
well-formed one. -/
theorem claim_C9_witness :
    build_plan_for_file [] (OkbDoc.invalidJson 0) = none ∧
    ("bad.json".data : Str) ∉
      (okb_main []
        [("bad.json".data, OkbDoc.invalidJson 0),
         ("ok.json".data, OkbDoc.doc [] 0)] false true).zipEntries ∧
    ("bad.json".data, OkbDoc.invalidJson 0) ∈
      (okb_main []
        [("bad.json".data, OkbDoc.invalidJson 0),
         ("ok.json".data, OkbDoc.doc [] 0)] false true).outFiles := by
  have h := claim_C9 []
    [("bad.json".data, OkbDoc.invalidJson 0),
     ("ok.json".data, OkbDoc.doc [] 0)] false true
    ("bad.json".data) (OkbDoc.invalidJson 0) 0 (Or.inl rfl)
    (by decide) (by decide)
  exact ⟨h.1, h.2.1, h.2.2.2⟩

/-- Claim C10: two distinct device records with the same (Kind, normalized
Name) key, both matching the same enumerated live device, collapse to a
single record in the rewritten `Devices` map, stored under the shared new
GUID; the later record's payload overwrites the earlier one's, so the
output has strictly fewer records than the input. -/
theorem claim_C10 (dm : List ((Str × Str) × List Str)) (g1 g2 k n : Str)
    (i1 i2 : Option Str) (p1 p2 : Nat) (G : Str) (gs : List Str)
    (hg : g1 ≠ g2) (hk : k ≠ []) (hn : n ≠ [])
    (hdm : dmGet dm (k, normalize_name n) = some (G :: gs)) :
    (processDevices dm
      [(g1, JEntry.obj (some k) (some n) i1 p1),
       (g2, JEntry.obj (some k) (some n) i2 p2)]).nd =
      [(G, JEntry.obj (some k) (some n) (some G) p2)] ∧
    (processDevices dm
      [(g1, JEntry.obj (some k) (some n) i1 p1),
       (g2, JEntry.obj (some k) (some n) i2 p2)]).nd.length <
      [(g1, JEntry.obj (some k) (some n) i1 p1),
       (g2, JEntry.obj (some k) (some n) i2 p2)].length := by
  have hfal : ¬ (falsyOpt (some k) ∨ falsyOpt (some n)) := by
    simp [falsyOpt, hk, hn]
  have hnd : (processDevices dm
      [(g1, JEntry.obj (some k) (some n) i1 p1),
       (g2, JEntry.obj (some k) (some n) i2 p2)]).nd =
      [(G, JEntry.obj (some k) (some n) (some G) p2)] := by
    unfold processDevices
    rw [List.foldl_cons, List.foldl_cons, List.foldl_nil]
    have hstep1 : okbStep dm ⟨[], []⟩ (g1, JEntry.obj (some k) (some n) i1 p1) =
        { nd := [(G, JEntry.obj (some k) (some n) (some G) p1)],
          changes :=
            if toUpperStr g1 ≠ G ∨ toUpperStr (i1.getD g1) ≠ G then
              [⟨k, n, toUpperStr g1, toUpperStr (i1.getD g1), G⟩]
            else [] } := by
      unfold okbStep
      simp only [if_neg hfal, Option.getD_some, hdm]
      unfold dinsert
      simp
    rw [hstep1]
    unfold okbStep
    simp only [if_neg hfal, Option.getD_some, hdm]
    unfold dinsert
    simp
  refine ⟨hnd, ?_⟩
  rw [hnd]
  simp

/-- Witness for C10 at a concrete input. -/
theorem claim_C10_witness :
    (processDevices
      [(("GameController".data, "stick".data),
        ["{AAAAAAAA-0000-0000-0000-000000000000}".data])]
      [("{11111111-0000-0000-0000-000000000000}".data,
        JEntry.obj (some "GameController".data) (some "Stick".data) none 1),
       ("{22222222-0000-0000-0000-000000000000}".data,
        JEntry.obj (some "GameController".data) (some "Stick".data) none 2)]).nd =
      [("{AAAAAAAA-0000-0000-0000-000000000000}".data,
        JEntry.obj (some "GameController".data) (some "Stick".data)
          (some "{AAAAAAAA-0000-0000-0000-000000000000}".data) 2)] :=
  (claim_C10
    [(("GameController".data, "stick".data),
      ["{AAAAAAAA-0000-0000-0000-000000000000}".data])]
    ("{11111111-0000-0000-0000-000000000000}".data)
    ("{22222222-0000-0000-0000-000000000000}".data)
    ("GameController".data) ("Stick".data) none none 1 2
    ("{AAAAAAAA-0000-0000-0000-000000000000}".data) []
    (by decide) (by decide) (by decide) (by decide)).1

/-!
## Identity preservation (claim C1)

For the file restorer: no run step ever renames a file — a `Restored`
decision updates bytes at exactly the path selected before comparison, and
the only names a run adds are verbatim copies of backup files.  For the
document remapper: every binding of the rewritten `Devices` map is either
an untouched input record under its original key, or a rewritten record
stored under the *live* enumerated GUID (never under the backup's stale
key), with its `"ID"` field set to that same GUID.
-/

def copiedName : BDecision → Option Str
  | .copiedD n => some n
  | _ => none

theorem fsUpdate_names (fs : List File) (n c : Str) (m : Nat) :
    (fsUpdate fs n c m).map File.name = fs.map File.name := by
  unfold fsUpdate
  rw [List.map_map]
  apply List.map_congr_left
  intro f _
  by_cases hf : f.name = n
  · simp [hf]
  · simp [hf]

theorem choose_target_mem (fs : List File) (n0 : Str) (ns : List Str) :
    choose_target fs (n0 :: ns) ∈ n0 :: ns := by
  simp only [choose_target]
  have haux : ∀ (l : List Str) (b : Str),
      (l.foldl (fun best m => if mtimeOf fs best < mtimeOf fs m then m else best) b)
        = b ∨
      (l.foldl (fun best m => if mtimeOf fs best < mtimeOf fs m then m else best) b)
        ∈ l := by
    intro l
    induction l with
    | nil => intro b; left; rfl
    | cons x xs ih =>
      intro b
      rw [List.foldl_cons]
      by_cases hx : mtimeOf fs b < mtimeOf fs x
      · rw [if_pos hx]
        rcases ih x with hh | hh
        · right; rw [hh]; exact List.mem_cons_self x xs
        · right; exact List.mem_cons_of_mem x hh
      · rw [if_neg hx]
        rcases ih b with hh | hh
        · left; exact hh
        · right; exact List.mem_cons_of_mem x hh
  rcases haux ns n0 with hh | hh
  · rw [hh]; exact List.mem_cons_self n0 ns
  · exact List.mem_cons_of_mem n0 hh

theorem mem_idxGet_indexInsert {idx : List (Str × List Str)} {k k' n' n : Str}
    (h : n ∈ idxGet (indexInsert idx k' n') k) : n ∈ idxGet idx k ∨ n = n' := by
  induction idx with
  | nil =>
    simp only [indexInsert, idxGet] at h
    by_cases hk : k' = k
    · rw [if_pos hk] at h
      right
      simpa using h
    · rw [if_neg hk] at h
      exact absurd h (by simp)
  | cons e rest ih =>
    simp only [indexInsert] at h
    by_cases he : e.1 = k'
    · rw [if_pos he] at h
      simp only [idxGet] at h ⊢
      by_cases hek : e.1 = k
      · rw [if_pos hek] at h ⊢
        rcases List.mem_append.mp h with h1 | h1
        · left; exact h1
        · right; simpa using h1
      · rw [if_neg hek] at h ⊢
        left; exact h
    · rw [if_neg he] at h
      simp only [idxGet] at h ⊢
      by_cases hek : e.1 = k
      · rw [if_pos hek] at h ⊢
        left; exact h
      · rw [if_neg hek] at h ⊢
        exact ih h

theorem mem_idxGet_build_foldl {fl : List File} :
    ∀ (idx : List (Str × List Str)) (k n : Str),
      n ∈ idxGet (fl.foldl
        (fun i f => indexInsert i (normalize_key f.name) f.name) idx) k →
      n ∈ idxGet idx k ∨ ∃ f ∈ fl, f.name = n := by
  induction fl with
  | nil => intro idx k n h; left; exact h
  | cons f fl' ih =>
    intro idx k n h
    rw [List.foldl_cons] at h
    rcases ih _ k n h with h1 | h1
    · rcases mem_idxGet_indexInsert h1 with h2 | h2
      · left; exact h2
      · right; exact ⟨f, List.mem_cons_self f fl', h2.symm⟩
    · right
      obtain ⟨g, hg, he⟩ := h1
      exact ⟨g, List.mem_cons_of_mem f hg, he⟩

theorem mem_idxGet_build_index {d : Option (List File)} {k n : Str}
    (h : n ∈ idxGet (build_index d) k) : n ∈ (d.getD []).map File.name := by
  unfold build_index at h
  rcases mem_idxGet_build_foldl _ k n h with h1 | h1
  · exact absurd h1 (by simp [idxGet])
  · obtain ⟨f, hf, he⟩ := h1
    unfold list_xml_files at hf
    exact he ▸ List.mem_map_of_mem File.name (List.mem_of_mem_filter hf)

theorem bmsStep_frame (h : Str → Str) (bad : List Str) (cim : Bool)
    (bfs : List File) (lIdx : List (Str × List Str)) (st : BmsSt)
    (entry : Str × List Str) :
    ∃ ds : List BDecision,
      (bmsStep h bad cim bfs lIdx st entry).decisions = st.decisions ++ ds ∧
      (bmsStep h bad cim bfs lIdx st entry).files.map File.name =
        st.files.map File.name ++ ds.filterMap copiedName ∧
      (∀ t, BDecision.restoredD t ∈ ds → t ∈ idxGet lIdx entry.1) := by
  simp only [bmsStep]
  cases hidx : idxGet lIdx entry.1 with
  | nil =>
    dsimp only
    by_cases hcim : cim
    · rw [if_pos hcim]
      exact ⟨[.copiedD (choose_target bfs entry.2)], by simp, by
        simp [copiedName], by simp⟩
    · rw [if_neg hcim]
      exact ⟨[.missD entry.1], by simp, by simp [copiedName], by simp⟩
  | cons t0 ts =>
    dsimp only
    by_cases hb : choose_target bfs entry.2 ∈ bad
    · rw [if_pos hb]
      exact ⟨[], by simp, by simp, by simp⟩
    · rw [if_neg hb]
      by_cases ht : choose_target st.files (t0 :: ts) ∈ bad
      · rw [if_pos ht]
        exact ⟨[], by simp, by simp, by simp⟩
      · rw [if_neg ht]
        by_cases he : h (contentOf bfs (choose_target bfs entry.2)) =
            h (contentOf st.files (choose_target st.files (t0 :: ts)))
        · rw [if_pos he]
          exact ⟨[.identicalD (choose_target st.files (t0 :: ts))], by simp,
            by simp [copiedName], by simp⟩
        · rw [if_neg he]
          refine ⟨[.restoredD (choose_target st.files (t0 :: ts))],
            by simp, ?_, ?_⟩
          · simp [fsUpdate_names, copiedName]
          · intro t htm
            have : t = choose_target st.files (t0 :: ts) := by simpa using htm
            rw [this]
            exact choose_target_mem st.files t0 ts

theorem bmsRun_frame (h : Str → Str) (bad : List Str) (cim : Bool)
    (bfs : List File) (lIdx : List (Str × List Str)) :
    ∀ (entries : List (Str × List Str)) (st : BmsSt),
      ∃ ds : List BDecision,
        (bmsRun h bad cim bfs lIdx entries st).decisions =
          st.decisions ++ ds ∧
        (bmsRun h bad cim bfs lIdx entries st).files.map File.name =
          st.files.map File.name ++ ds.filterMap copiedName ∧
        (∀ t, BDecision.restoredD t ∈ ds → ∃ k, t ∈ idxGet lIdx k) := by
  intro entries
  induction entries with
  | nil => intro st; exact ⟨[], by simp [bmsRun], by simp [bmsRun], by simp⟩
  | cons e es ih =>
    intro st
    have hcons : bmsRun h bad cim bfs lIdx (e :: es) st =
        bmsRun h bad cim bfs lIdx es
          (if st.err.isSome then st else bmsStep h bad cim bfs lIdx st e) := rfl
    rw [hcons]
    by_cases herr : st.err.isSome
    · rw [if_pos herr]
      exact ih st
    · rw [if_neg herr]
      obtain ⟨ds₁, hd₁, hf₁, hr₁⟩ := bmsStep_frame h bad cim bfs lIdx st e
      obtain ⟨ds₂, hd₂, hf₂, hr₂⟩ := ih (bmsStep h bad cim bfs lIdx st e)
      refine ⟨ds₁ ++ ds₂, ?_, ?_, ?_⟩
      · rw [hd₂, hd₁, List.append_assoc]
      · rw [hf₂, hf₁, List.filterMap_append, List.append_assoc]
      · intro t htm
        rcases List.mem_append.mp htm with hm | hm
        · exact ⟨e.1, hr₁ t hm⟩
        · exact hr₂ t hm

theorem mem_dinsert {d : List (Str × JEntry)} {k : Str} {v : JEntry}
    {b : Str × JEntry} (hb : b ∈ dinsert d k v) : b ∈ d ∨ b = (k, v) := by
  unfold dinsert at hb
  by_cases hf : (d.find? (fun e => e.1 = k)).isSome
  · rw [if_pos hf] at hb
    obtain ⟨e, he, hmap⟩ := List.mem_map.mp hb
    by_cases hek : e.1 = k
    · right
      rw [← hmap, if_pos hek]
    · left
      rw [← hmap, if_neg hek]
      exact he
  · rw [if_neg hf] at hb
    rcases List.mem_append.mp hb with hh | hh
    · left; exact hh
    · right; simpa using hh

/-- Soundness predicate for rewritten `Devices` bindings: untouched input
record, or rewrite keyed by the enumerated live GUID with `ID` set to it. -/
def OkbRecordOk (dm : List ((Str × Str) × List Str))
    (devs : List (Str × JEntry)) (b : Str × JEntry) : Prop :=
  b ∈ devs ∨
  ∃ kv ∈ devs, ∃ kind name id' payload G gs,
    kv.2 = JEntry.obj kind name id' payload ∧
    ¬ (falsyOpt kind ∨ falsyOpt name) ∧
    dmGet dm (kind.getD [], normalize_name (name.getD [])) =
      some (G :: gs) ∧
    b = (G, JEntry.obj kind name (some G) payload)

theorem okb_nd_aux (dm : List ((Str × Str) × List Str))
    (devsAll : List (Str × JEntry)) :
    ∀ (l : List (Str × JEntry)) (acc : OkbAcc),
      (∀ kv ∈ l, kv ∈ devsAll) →
      (∀ b ∈ acc.nd, OkbRecordOk dm devsAll b) →
      ∀ b ∈ (l.foldl (okbStep dm) acc).nd, OkbRecordOk dm devsAll b := by
  intro l
  induction l with
  | nil => intro acc _ hacc b hb; exact hacc b hb
  | cons kv l' ih =>
    intro acc hsub hacc b hb
    rw [List.foldl_cons] at hb
    refine ih _ (fun x hx => hsub x (List.mem_cons_of_mem kv hx)) ?_ b hb
    intro b' hb'
    have hkv : kv ∈ devsAll := hsub kv (List.mem_cons_self kv l')
    cases hkve : kv.2 with
    | other t =>
      simp only [okbStep, hkve] at hb'
      rcases mem_dinsert hb' with hh | hh
      · exact hacc b' hh
      · left
        rw [hh, ← hkve]
        exact hkv
    | obj kind name id' payload =>
      simp only [okbStep, hkve] at hb'
      by_cases hfal : falsyOpt kind ∨ falsyOpt name
      · rw [if_pos hfal] at hb'
        rcases mem_dinsert hb' with hh | hh
        · exact hacc b' hh
        · left
          rw [hh, ← hkve]
          exact hkv
      · rw [if_neg hfal] at hb'
        cases hdm : dmGet dm (kind.getD [], normalize_name (name.getD [])) with
        | none =>
          rw [hdm] at hb'
          rcases mem_dinsert hb' with hh | hh
          · exact hacc b' hh
          · left
            rw [hh, ← hkve]
            exact hkv
        | some gl =>
          rw [hdm] at hb'
          cases gl with
          | nil =>
            rcases mem_dinsert hb' with hh | hh
            · exact hacc b' hh
            · left
              rw [hh, ← hkve]
              exact hkv
          | cons g gs =>
            rcases mem_dinsert hb' with hh | hh
            · exact hacc b' hh
            · right
              exact ⟨kv, hkv, kind, name, id', payload, g, gs, hkve, hfal,
                hdm, hh⟩

/-- Claim C1: identity preservation.  In a (non-dry) bms run the names of
the live directory are preserved — the run's output names are the input
names plus exactly the copied-as-new names, and every `Restored`
decision's target is a pre-existing live file name (the path selected
before comparison; its bytes, not its name, were replaced).  In the
document remapper, every binding of the rewritten `Devices` map is an
untouched input record under its original key or a rewritten record keyed
by the live enumerated GUID — never by the backup's stale key — with its
`ID` field set to that GUID. -/
theorem claim_C1 (h : Str → Str) (bad : List Str) (cim : Bool)
    (bdir ldir : List File) (clock : Nat)
    (dm : List ((Str × Str) × List Str)) (devs : List (Str × JEntry)) :
    (restore_from_backups h bad cim (some bdir) (some ldir) clock).files.map
        File.name =
      ldir.map File.name ++
        (restore_from_backups h bad cim (some bdir) (some ldir)
          clock).decisions.filterMap copiedName ∧
    (∀ t, BDecision.restoredD t ∈
        (restore_from_backups h bad cim (some bdir) (some ldir)
          clock).decisions →
      t ∈ ldir.map File.name) ∧
    (∀ b ∈ (processDevices dm devs).nd, OkbRecordOk dm devs b) := by
  have hrfb : restore_from_backups h bad cim (some bdir) (some ldir) clock =
      bmsRun h bad cim bdir (build_index (some ldir))
        (build_index (some bdir)) (bmsInit ldir clock) := rfl
  obtain ⟨ds, hd, hf, hr⟩ := bmsRun_frame h bad cim bdir
    (build_index (some ldir)) (build_index (some bdir)) (bmsInit ldir clock)
  refine ⟨?_, ?_, ?_⟩
  · rw [hrfb, hf, hd]
    rfl
  · intro t htm
    rw [hrfb, hd] at htm
    have htm' : BDecision.restoredD t ∈ ds := by simpa [bmsInit] using htm
    obtain ⟨k, hk⟩ := hr t htm'
    have := mem_idxGet_build_index hk
    simpa using this
  · exact okb_nd_aux dm devs devs ⟨[], []⟩ (fun kv hkv => hkv) (by simp)

/-- Witness for C1 at the spec's two-GUID scenario. -/
theorem claim_C1_witness :
    ("P {22222222-2222-2222-2222-222222222222}.xml".data : Str) ∈
      ([⟨"P {22222222-2222-2222-2222-222222222222}.xml".data,
          "Y".data, 2⟩] : List File).map File.name :=
  (claim_C1 id [] false
    [⟨"P {11111111-1111-1111-1111-111111111111}.xml".data, "X".data, 1⟩]
    [⟨"P {22222222-2222-2222-2222-222222222222}.xml".data, "Y".data, 2⟩]
    10 [] []).2.1
    ("P {22222222-2222-2222-2222-222222222222}.xml".data) (by decide)

/-!
## Model of `dcs_restore.py`

The dcs restorer walks the whole backup tree.  A file lives at a relative
directory (`parent`, a component list relative to the roots) with a name;
the live side additionally tracks which directories exist (empty
directories can exist, and `mkdir(parents=True)` creates a whole chain).
The walk order of `sorted(backup_root.rglob("*"))` is the order of the
given backup file list.  The loop filters to device-binding files: not a
`.zip`, `suffixes[-2:] == ['.diff','.lua']`, a `GUID_DIFF_RE` match, and
an immediate parent folder named `joystick` (case-insensitively); the
line-221 `else` branch for non-GUID files is unreachable and not
modelled.  Dry-run mode skips only the temp-write/rename pair — the
copy-if-missing branches run unconditionally, and `restored` is
incremented in both modes.  `bad` injects `OSError` at the `sha256_file`
calls, keyed by `(parent, name)`.
-/

structure DFile where
  parent : List Str
  name : Str
  content : Str
  mtime : Nat
deriving DecidableEq, Repr, Inhabited

structure DcsFs where
  dirs : List (List Str)
  files : List DFile
deriving DecidableEq, Repr, Inhabited

/-- `suffixes[-2:] == ['.diff', '.lua']`. -/
def diffLuaLast2 (name : Str) : Bool :=
  lastTwo (pySuffixes name) = [".diff".data, ".lua".data]

def lastComponent (ps : List Str) : Str := ps.getLast?.getD []

/-- The enumeration filters of the backup walk. -/
def dcsEligible (f : DFile) : Bool :=
  ¬ (toLowerStr (pySuffix f.name) = ".zip".data) ∧
  diffLuaLast2 f.name ∧
  (guidStemMatch diffLuaSfx.reverse f.name).isSome ∧
  toLowerStr (lastComponent f.parent) = "joystick".data

/-- The `(folder, normalized key)` pair a backup file binds to. -/
def dpairOf (f : DFile) : List Str × Str :=
  (f.parent, normalize_guid_filename f.name)

/-- The candidate search in the target folder: files of the same parent
with `.diff.lua` suffixes and the same normalized key. -/
def candidatesFor (files : List DFile) (pr : List Str × Str) : List DFile :=
  files.filter (fun p => p.parent = pr.1 ∧ diffLuaLast2 p.name ∧
    normalize_guid_filename p.name = pr.2)

/-- `choose_target` on file records (first maximal mtime). -/
def chooseFile (cs : List DFile) : DFile :=
  match cs with
  | [] => default
  | c :: rest => rest.foldl (fun best p => if best.mtime < p.mtime then p else best) c

/-- In-place content replacement at `(parent, name)`. -/
def dcsUpdate (files : List DFile) (par : List Str) (n : Str) (c : Str)
    (m : Nat) : List DFile :=
  files.map (fun f =>
    if f.parent = par ∧ f.name = n then ⟨f.parent, f.name, c, m⟩ else f)

/-- `mkdir(parents=True)`: every nonempty prefix of the path. -/
def ancestors (ps : List Str) : List (List Str) :=
  (List.range ps.length).map (fun i => ps.take (i + 1))

inductive DDecision
  | missingD (parent : List Str) (key : Str)
  | copiedD (parent : List Str) (name : Str)
  | identicalD (parent : List Str) (name : Str)
  | restoredD (parent : List Str) (name : Str)
  | wouldRestoreD (parent : List Str) (name : Str)
deriving DecidableEq, Repr

structure DcsSt where
  dirs : List (List Str)
  files : List DFile
  clock : Nat
  restored : Nat
  identical : Nat
  missing : Nat
  copiedMissing : Nat
  decisions : List DDecision
  err : Option RunErr
deriving DecidableEq, Repr

/-- One iteration of the backup-walk loop for an eligible file `b`. -/
def dcsStep (h : Str → Str) (bad : List (List Str × Str)) (cim dry : Bool)
    (b : DFile) (st : DcsSt) : DcsSt :=
  if b.parent ∈ st.dirs then
    match candidatesFor st.files (dpairOf b) with
    | [] =>
      let st' := { st with missing := st.missing + 1 }
      if cim then
        { st' with files := st'.files ++ [b],
                   copiedMissing := st'.copiedMissing + 1,
                   decisions := st'.decisions ++ [.copiedD b.parent b.name] }
      else
        { st' with decisions := st'.decisions ++
            [.missingD b.parent (normalize_guid_filename b.name)] }
    | c :: cs =>
      let t := chooseFile (c :: cs)
      if (b.parent, b.name) ∈ bad then { st with err := some (.ioError b.name) }
      else if (t.parent, t.name) ∈ bad then
        { st with err := some (.ioError t.name) }
      else if h b.content = h t.content then
        { st with identical := st.identical + 1,
                  decisions := st.decisions ++ [.identicalD t.parent t.name] }
      else if dry then
        { st with restored := st.restored + 1,
                  decisions := st.decisions ++
                    [.wouldRestoreD t.parent t.name] }
      else
        { st with files := dcsUpdate st.files t.parent t.name b.content st.clock,
                  clock := st.clock + 1,
                  restored := st.restored + 1,
                  decisions := st.decisions ++ [.restoredD t.parent t.name] }
  else
    let st' := { st with missing := st.missing + 1 }
    if cim then
      { st' with dirs := st'.dirs ++ ancestors b.parent,
                 files := st'.files ++ [b],
                 copiedMissing := st'.copiedMissing + 1,
                 decisions := st'.decisions ++ [.copiedD b.parent b.name] }
    else
      { st' with decisions := st'.decisions ++
          [.missingD b.parent (normalize_guid_filename b.name)] }

def dcsRun (h : Str → Str) (bad : List (List Str × Str)) (cim dry : Bool)
    (bfiles : List DFile) (st : DcsSt) : DcsSt :=
  bfiles.foldl
    (fun s b => if s.err.isSome then s else dcsStep h bad cim dry b s) st

def dcsInit (fs : DcsFs) (clock : Nat) : DcsSt :=
  ⟨fs.dirs, fs.files, clock, 0, 0, 0, 0, [], none⟩

/-- `dcs_restore.restore_dcs`: raises `FileNotFoundError` when either root
is missing, else walks the filtered backup files. -/
def restore_dcs (h : Str → Str) (bad : List (List Str × Str)) (cim dry : Bool)
    (backup dcs : Option DcsFs) (clock : Nat) : DcsSt :=
  match backup with
  | none => { dcsInit ⟨[], []⟩ clock with err := some .dirMissing }
  | some bfs =>
    match dcs with
    | none => { dcsInit ⟨[], []⟩ clock with err := some .dirMissing }
    | some lfs =>
      dcsRun h bad cim dry (bfs.files.filter dcsEligible) (dcsInit lfs clock)

/-!
## The three `main` entry points, as event traces

Mutation events: `replacedE` (an in-place content replacement of a live
artifact), `copiedE` (a new file copied into the live tree), `wroteDoc`
(a document rewrite).  `archived` marks the snapshot zip write.
-/

def bEventOf : BDecision → Option Event
  | .copiedD n => some (.copiedE [] n)
  | .restoredD n => some (.replacedE n)
  | _ => none

def dEventOf : DDecision → Option Event
  | .copiedD p n => some (.copiedE p n)
  | .restoredD _ n => some (.replacedE n)
  | _ => none

def isMutEvent : Event → Bool
  | .replacedE _ => true
  | .copiedE _ _ => true
  | .wroteDoc _ => true
  | .archived => false

/-- No mutation event strictly before the first `archived` event. -/
def noMutBeforeArchive : List Event → Bool
  | [] => true
  | .archived :: _ => true
  | e :: rest => ¬ isMutEvent e ∧ noMutBeforeArchive rest

structure BmsMainRes where
  trace : List Event
  st : BmsSt
  err : Option RunErr
deriving DecidableEq, Repr

/-- `bms_restore.main`: check the live root, zip the whole live tree,
then restore.  `zipOk = false` injects an archive-write failure. -/
def bms_main (h : Str → Str) (bad : List Str) (cim : Bool)
    (backupDir bmsDir : Option (List File)) (clock : Nat) (zipOk : Bool) :
    BmsMainRes :=
  match bmsDir with
  | none => ⟨[], bmsInit [] clock, some .dirMissing⟩
  | some ldir =>
    match zipOk with
    | false => ⟨[], bmsInit ldir clock, some .archiveFailed⟩
    | true =>
      let st := restore_from_backups h bad cim backupDir (some ldir) clock
      ⟨.archived :: st.decisions.filterMap bEventOf, st, st.err⟩

structure DcsMainRes where
  trace : List Event
  st : DcsSt
  err : Option RunErr
deriving DecidableEq, Repr

/-- `dcs_restore.main`: in replace mode, zip the live tree first (abort on
failure), then restore; in dry-run mode no zip is attempted at all but
the restore pass (including its unconditional copy-if-missing branches)
still runs. -/
def dcs_main (h : Str → Str) (bad : List (List Str × Str)) (cim dry : Bool)
    (backup dcs : Option DcsFs) (clock : Nat) (zipOk : Bool) : DcsMainRes :=
  match dry with
  | true =>
    let st := restore_dcs h bad cim true backup dcs clock
    ⟨st.decisions.filterMap dEventOf, st, st.err⟩
  | false =>
    match zipOk with
    | false => ⟨[], dcsInit (dcs.getD ⟨[], []⟩) clock, some .archiveFailed⟩
    | true =>
      let st := restore_dcs h bad cim false backup dcs clock
      ⟨.archived :: st.decisions.filterMap dEventOf, st, st.err⟩

/-!
## Missing source directories (claim C8)

`bms_restore.build_index` (via `list_xml_files`) is total and yields an
empty index for a missing folder — but the *passes* are not raise-free:
`restore_from_backups` raises `FileNotFoundError` when the live config
dir is missing (it only tolerates a missing backup dir, with a warning),
and `restore_dcs` raises when either root is missing.
-/

/-- Claim C8, counterexample.  The claim says a reconciliation pass over a
missing source directory does not raise; but the dcs pass raises
`FileNotFoundError` for a missing backup root, and the bms pass raises
when the live config dir is missing. -/
theorem claim_C8_counterexample :
    (restore_dcs id [] false false none (some ⟨[], []⟩) 0).err =
      some RunErr.dirMissing ∧
    (restore_from_backups id [] false
      (some [⟨"a.xml".data, "x".data, 0⟩]) none 0).err =
      some RunErr.dirMissing := by
  constructor <;> rfl

/-- Claim C8, amended.  Building the artifact index over a missing source
directory yields an empty index rather than failing (`build_index none =
[]`), and the bms pass tolerates a missing *backup* directory (warn and
return with zero counters, no raise); but the bms pass raises when the
live config dir is missing, and the dcs pass raises when either root is
missing. -/
theorem claim_C8 (h : Str → Str) (bad : List Str)
    (dbad : List (List Str × Str)) (cim dry : Bool)
    (bmsDir : Option (List File)) (bdir : List File) (bfs : DcsFs)
    (dcs : Option DcsFs) (clock : Nat) :
    build_index none = [] ∧
    restore_from_backups h bad cim none bmsDir clock =
      bmsInit (bmsDir.getD []) clock ∧
    (restore_from_backups h bad cim (some bdir) none clock).err =
      some RunErr.dirMissing ∧
    (restore_dcs h dbad cim dry none dcs clock).err =
      some RunErr.dirMissing ∧
    (restore_dcs h dbad cim dry (some bfs) none clock).err =
      some RunErr.dirMissing := by
  refine ⟨rfl, ?_, rfl, ?_, rfl⟩
  · cases bmsDir <;> rfl
  · cases dcs <;> rfl

/-- Witness for C8 at concrete inputs. -/
theorem claim_C8_witness :
    build_index none = [] ∧
    (restore_from_backups id [] true (some []) none 3).err =
      some RunErr.dirMissing :=
  have h := claim_C8 id [] [] true false none [] ⟨[], []⟩ none 3
  ⟨h.1, h.2.2.1⟩

/-!
## Snapshot before mutation (claim C6)

The bms and okb entry points write their zip strictly before any
mutation, and an archive failure aborts with nothing touched; so does the
dcs entry point in replace mode.  But a dcs *dry* run never attempts a
zip, while its copy-if-missing branches still run — so with
`copy_if_missing = true` a dry run copies files into the live tree with
no snapshot taken at all.
-/

theorem dcsStep_dry_shape (h : Str → Str) (bad : List (List Str × Str))
    (cim : Bool) (b : DFile) (st : DcsSt) :
    ∃ ds app, (dcsStep h bad cim true b st).decisions = st.decisions ++ ds ∧
      (dcsStep h bad cim true b st).files = st.files ++ app ∧
      (∀ p n, DDecision.restoredD p n ∉ ds) := by
  unfold dcsStep
  by_cases hd : b.parent ∈ st.dirs
  · rw [if_pos hd]
    cases hc : candidatesFor st.files (dpairOf b) with
    | nil =>
      dsimp only
      by_cases hcim : cim
      · rw [if_pos hcim]
        exact ⟨[.copiedD b.parent b.name], [b], by simp, by simp, by simp⟩
      · rw [if_neg hcim]
        exact ⟨[.missingD b.parent (normalize_guid_filename b.name)], [],
          by simp, by simp, by simp⟩
    | cons c cs =>
      dsimp only
      by_cases hb : (b.parent, b.name) ∈ bad
      · rw [if_pos hb]
        exact ⟨[], [], by simp, by simp, by simp⟩
      · rw [if_neg hb]
        by_cases ht : ((chooseFile (c :: cs)).parent,
            (chooseFile (c :: cs)).name) ∈ bad
        · rw [if_pos ht]
          exact ⟨[], [], by simp, by simp, by simp⟩
        · rw [if_neg ht]
          by_cases he : h b.content = h (chooseFile (c :: cs)).content
          · rw [if_pos he]
            exact ⟨[.identicalD (chooseFile (c :: cs)).parent
              (chooseFile (c :: cs)).name], [], by simp, by simp, by simp⟩
          · rw [if_neg he, if_pos rfl]
            exact ⟨[.wouldRestoreD (chooseFile (c :: cs)).parent
              (chooseFile (c :: cs)).name], [], by simp, by simp, by simp⟩
  · rw [if_neg hd]
    dsimp only
    by_cases hcim : cim
    · rw [if_pos hcim]
      exact ⟨[.copiedD b.parent b.name], [b], by simp, by simp, by simp⟩
    · rw [if_neg hcim]
      exact ⟨[.missingD b.parent (normalize_guid_filename b.name)], [],
        by simp, by simp, by simp⟩

theorem dcsRun_dry_shape (h : Str → Str) (bad : List (List Str × Str))
    (cim : Bool) :
    ∀ (l : List DFile) (st : DcsSt),
      ∃ ds app, (dcsRun h bad cim true l st).decisions = st.decisions ++ ds ∧
        (dcsRun h bad cim true l st).files = st.files ++ app ∧
        (∀ p n, DDecision.restoredD p n ∉ ds) := by
  intro l
  induction l with
  | nil => intro st; exact ⟨[], [], by simp [dcsRun], by simp [dcsRun], by simp⟩
  | cons b bs ih =>
    intro st
    have hcons : dcsRun h bad cim true (b :: bs) st =
        dcsRun h bad cim true bs
          (if st.err.isSome then st else dcsStep h bad cim true b st) := rfl
    rw [hcons]
    by_cases herr : st.err.isSome
    · rw [if_pos herr]
      exact ih st
    · rw [if_neg herr]
      obtain ⟨ds₁, app₁, hd₁, hf₁, hr₁⟩ := dcsStep_dry_shape h bad cim b st
      obtain ⟨ds₂, app₂, hd₂, hf₂, hr₂⟩ := ih (dcsStep h bad cim true b st)
      refine ⟨ds₁ ++ ds₂, app₁ ++ app₂, ?_, ?_, ?_⟩
      · rw [hd₂, hd₁, List.append_assoc]
      · rw [hf₂, hf₁, List.append_assoc]
      · intro p n hm
        rcases List.mem_append.mp hm with hm | hm
        · exact hr₁ p n hm
        · exact hr₂ p n hm

/-- A dry dcs run never produces a `Restored` decision (and hence never a
`replacedE` mutation event). -/
theorem restore_dcs_dry_no_replace (h : Str → Str)
    (bad : List (List Str × Str)) (cim : Bool) (backup dcs : Option DcsFs)
    (clock : Nat) (p : List Str) (n : Str) :
    DDecision.restoredD p n ∉
      (restore_dcs h bad cim true backup dcs clock).decisions := by
  unfold restore_dcs
  cases backup with
  | none => simp [dcsInit]
  | some bfs =>
    cases dcs with
    | none => simp [dcsInit]
    | some lfs =>
      obtain ⟨ds, app, hd, _, hr⟩ := dcsRun_dry_shape h bad cim
        (bfs.files.filter dcsEligible) (dcsInit lfs clock)
      rw [hd]
      intro hm
      rcases List.mem_append.mp hm with hm | hm
      · simp [dcsInit] at hm
      · exact hr p n hm

/-- Directory for C6's counterexample (backup side). -/
def c6bak : DcsFs :=
  ⟨[["joystick".data]],
   [⟨["joystick".data],
     "A {11111111-1111-1111-1111-111111111111}.diff.lua".data, "x".data, 1⟩]⟩

/-- Claim C6, counterexample.  A dcs dry run with `copy_if_missing = true`
copies a backup file into the live tree (a `copiedE` mutation event) with
no archive written at any point: the mutation is not preceded by an
`archived` event. -/
theorem claim_C6_counterexample :
    (dcs_main id [] true true (some c6bak) (some ⟨[], []⟩) 10 true).trace =
      [Event.copiedE ["joystick".data]
        "A {11111111-1111-1111-1111-111111111111}.diff.lua".data] ∧
    noMutBeforeArchive
      (dcs_main id [] true true (some c6bak) (some ⟨[], []⟩) 10 true).trace =
      false := by
  constructor <;> decide
/-- Claim C6, amended.  In every bms run, every okb run, and every dcs
*replace-mode* run, no mutation of the live tree precedes the snapshot
archive, and an archive-write failure aborts the run with no mutation
performed (empty event trace, state untouched).  A dcs *dry* run never
performs a content replacement — but it attempts no archive at all, and
(per the counterexample) its copy-if-missing branches can still create
files in the live tree unprotected by any snapshot. -/
theorem claim_C6 (h : Str → Str) (bad : List Str)
    (dbad : List (List Str × Str)) (cim dry zipOk : Bool)
    (backupDir : Option (List File)) (ldir : List File)
    (backup dcs : Option DcsFs) (clock : Nat)
    (dm : List ((Str × Str) × List Str)) (files : List (Str × OkbDoc)) :
    noMutBeforeArchive
      (bms_main h bad cim backupDir (some ldir) clock zipOk).trace = true ∧
    (bms_main h bad cim backupDir (some ldir) clock false).st =
      bmsInit ldir clock ∧
    (bms_main h bad cim backupDir (some ldir) clock false).trace = [] ∧
    noMutBeforeArchive (okb_main dm files dry zipOk).trace = true ∧
    (okb_main dm files dry false).outFiles = files ∧
    (okb_main dm files dry false).trace = [] ∧
    noMutBeforeArchive
      (dcs_main h dbad cim false backup dcs clock zipOk).trace = true ∧
    (dcs_main h dbad cim false backup dcs clock false).st =
      dcsInit (dcs.getD ⟨[], []⟩) clock ∧
    (dcs_main h dbad cim false backup dcs clock false).trace = [] ∧
    (∀ n, Event.replacedE n ∉
      (dcs_main h dbad cim true backup dcs clock zipOk).trace) := by
  refine ⟨?_, rfl, rfl, ?_, ?_, ?_, ?_, rfl, rfl, ?_⟩
  · cases zipOk <;> rfl
  · unfold okb_main
    cases hpl : okbPlans dm files with
    | nil => rfl
    | cons p ps => cases zipOk <;> cases dry <;> rfl
  · unfold okb_main
    cases hpl : okbPlans dm files with
    | nil => rfl
    | cons p ps => rfl
  · unfold okb_main
    cases hpl : okbPlans dm files with
    | nil => rfl
    | cons p ps => rfl
  · cases zipOk <;> rfl
  · intro n hm
    have htr : (dcs_main h dbad cim true backup dcs clock zipOk).trace =
        (restore_dcs h dbad cim true backup dcs clock).decisions.filterMap
          dEventOf := rfl
    rw [htr] at hm
    obtain ⟨d, hd, hde⟩ := List.mem_filterMap.mp hm
    cases d with
    | missingD p k => exact absurd hde (by simp [dEventOf])
    | copiedD p nm => exact absurd hde (by simp [dEventOf])
    | identicalD p nm => exact absurd hde (by simp [dEventOf])
    | wouldRestoreD p nm => exact absurd hde (by simp [dEventOf])
    | restoredD p nm =>
      exact restore_dcs_dry_no_replace h dbad cim backup dcs clock p nm hd

/-!
## Dry-run versus live-run classification (claim C5)

A dry dcs run and a live dcs run classify every key identically —
*provided* no two processed backup files share a `(folder, key)` pair.
The proof is a step-by-step simulation: both runs keep the same
directories, counters and (up to `wouldRestore` / `Restored` renaming)
decisions, and their file lists agree pointwise on parent and name
everywhere and on full records at every pair not yet processed; the
candidate search only reads parents and names, and the records it
compares always belong to the pair being processed.
-/

def dryToLive : DDecision → DDecision
  | .wouldRestoreD p n => .restoredD p n
  | d => d

def FileRel (processed : List (List Str × Str)) (f g : DFile) : Prop :=
  f.parent = g.parent ∧ f.name = g.name ∧ (dpairOf f ∉ processed → f = g)

def SimRel (processed : List (List Str × Str)) (d l : DcsSt) : Prop :=
  d.dirs = l.dirs ∧ d.restored = l.restored ∧ d.identical = l.identical ∧
  d.missing = l.missing ∧ d.copiedMissing = l.copiedMissing ∧
  l.decisions = d.decisions.map dryToLive ∧ d.err = none ∧ l.err = none ∧
  List.Forall₂ (FileRel processed) d.files l.files

theorem FileRel.weaken {processed : List (List Str × Str)}
    {q : List Str × Str} {f g : DFile} (h : FileRel processed f g) :
    FileRel (processed ++ [q]) f g :=
  ⟨h.1, h.2.1, fun hn => h.2.2 (fun hm => hn (List.mem_append_left _ hm))⟩

theorem fileRel_refl {processed : List (List Str × Str)} (f : DFile) :
    FileRel processed f f := ⟨Eq.refl _, Eq.refl _, fun _ => Eq.refl _⟩

theorem chooseFile_mem (c : DFile) (cs : List DFile) :
    chooseFile (c :: cs) ∈ c :: cs := by
  simp only [chooseFile]
  have haux : ∀ (l : List DFile) (b : DFile),
      (l.foldl (fun best p => if best.mtime < p.mtime then p else best) b) = b ∨
      (l.foldl (fun best p => if best.mtime < p.mtime then p else best) b) ∈ l := by
    intro l
    induction l with
    | nil => intro b; left; rfl
    | cons x xs ih =>
      intro b
      rw [List.foldl_cons]
      by_cases hx : b.mtime < x.mtime
      · rw [if_pos hx]
        rcases ih x with hh | hh
        · right; rw [hh]; exact List.mem_cons_self x xs
        · right; exact List.mem_cons_of_mem x hh
      · rw [if_neg hx]
        rcases ih b with hh | hh
        · left; exact hh
        · right; exact List.mem_cons_of_mem x hh
  rcases haux cs c with hh | hh
  · rw [hh]; exact List.mem_cons_self c cs
  · exact List.mem_cons_of_mem c hh

/-- A candidate for pair `pr` has exactly the pair `pr`. -/
theorem mem_candidatesFor {files : List DFile} {pr : List Str × Str}
    {f : DFile} (h : f ∈ candidatesFor files pr) :
    f ∈ files ∧ dpairOf f = pr := by
  unfold candidatesFor at h
  have h1 := List.mem_of_mem_filter h
  have h2 := List.of_mem_filter h
  simp only [decide_eq_true_eq] at h2
  refine ⟨h1, ?_⟩
  unfold dpairOf
  rw [h2.1, h2.2.2]

/-- The candidate search agrees across related file lists at an
unprocessed pair. -/
theorem candidatesFor_rel {processed : List (List Str × Str)}
    {df lf : List DFile} (hrel : List.Forall₂ (FileRel processed) df lf)
    {pr : List Str × Str} (hpr : pr ∉ processed) :
    candidatesFor df pr = candidatesFor lf pr := by
  induction hrel with
  | nil => rfl
  | @cons f g df' lf' hfg hrest ih =>
    unfold candidatesFor at ih ⊢
    rw [List.filter_cons, List.filter_cons]
    have hcond : (decide (f.parent = pr.1 ∧ diffLuaLast2 f.name ∧
        normalize_guid_filename f.name = pr.2)) =
        (decide (g.parent = pr.1 ∧ diffLuaLast2 g.name ∧
          normalize_guid_filename g.name = pr.2)) := by
      rw [hfg.1, hfg.2.1]
    rw [← hcond]
    by_cases hc : f.parent = pr.1 ∧ diffLuaLast2 f.name ∧
        normalize_guid_filename f.name = pr.2
    · rw [if_pos (by simpa using hc), if_pos (by simpa using hc)]
      have hfp : dpairOf f = pr := by
        unfold dpairOf
        rw [hc.1, hc.2.2]
      have hfg' : f = g := hfg.2.2 (hfp ▸ hpr)
      rw [hfg', ih]
    · rw [if_neg (by simpa using hc), if_neg (by simpa using hc)]
      exact ih

/-- `dcsUpdate` at a processed pair preserves the file relation. -/
theorem filesRel_dcsUpdate {processed : List (List Str × Str)}
    {df lf : List DFile} (hrel : List.Forall₂ (FileRel processed) df lf)
    {tp : List Str} {tn : Str} {c : Str} {m : Nat}
    (htp : (tp, normalize_guid_filename tn) ∈ processed) :
    List.Forall₂ (FileRel processed) df (dcsUpdate lf tp tn c m) := by
  induction hrel with
  | nil => exact List.Forall₂.nil
  | @cons f g df' lf' hfg hrest ih =>
    unfold dcsUpdate at ih ⊢
    rw [List.map_cons]
    refine List.Forall₂.cons ?_ ih
    by_cases hg : g.parent = tp ∧ g.name = tn
    · rw [if_pos hg]
      refine ⟨by rw [hfg.1, hg.1], by rw [hfg.2.1, hg.2], fun hn => ?_⟩
      exfalso
      apply hn
      unfold dpairOf
      rw [hfg.1, hfg.2.1, hg.1, hg.2]
      exact htp
    · rw [if_neg hg]
      exact hfg

theorem filesRel_weaken {processed : List (List Str × Str)}
    {q : List Str × Str} {df lf : List DFile}
    (h : List.Forall₂ (FileRel processed) df lf) :
    List.Forall₂ (FileRel (processed ++ [q])) df lf :=
  h.imp (fun _ _ hfg => FileRel.weaken hfg)

theorem filesRel_append_self {processed : List (List Str × Str)}
    {df lf : List DFile} (h : List.Forall₂ (FileRel processed) df lf)
    (b : DFile) :
    List.Forall₂ (FileRel processed) (df ++ [b]) (lf ++ [b]) := by
  induction h with
  | nil => exact List.Forall₂.cons (fileRel_refl b) List.Forall₂.nil
  | cons hfg hrest ih => exact List.Forall₂.cons hfg ih

theorem dcsStep_sim (h : Str → Str) (cim : Bool) (b : DFile)
    {processed : List (List Str × Str)} {d l : DcsSt}
    (hrel : SimRel processed d l) (hb : dpairOf b ∉ processed) :
    SimRel (processed ++ [dpairOf b])
      (dcsStep h [] cim true b d) (dcsStep h [] cim false b l) := by
  obtain ⟨hdirs, hres, hid, hmiss, hcm, hdec, herrd, herrl, hfiles⟩ := hrel
  unfold dcsStep
  rw [← hdirs]
  by_cases hmemd : b.parent ∈ d.dirs
  · rw [if_pos hmemd, if_pos hmemd]
    have hcands := candidatesFor_rel hfiles hb
    rw [← hcands]
    cases hcd : candidatesFor d.files (dpairOf b) with
    | nil =>
      dsimp only
      by_cases hcim : cim
      · rw [if_pos hcim, if_pos hcim]
        exact ⟨by simp [hdirs], by simp [hres], by simp [hid],
          by simp [hmiss], by simp [hcm],
          by simp [hdec, dryToLive], by simp [herrd], by simp [herrl],
          filesRel_append_self (filesRel_weaken hfiles) b⟩
      · rw [if_neg hcim, if_neg hcim]
        exact ⟨by simp [hdirs], by simp [hres], by simp [hid],
          by simp [hmiss], by simp [hcm],
          by simp [hdec, dryToLive], by simp [herrd], by simp [herrl],
          filesRel_weaken hfiles⟩
    | cons c cs =>
      dsimp only
      rw [if_neg (List.not_mem_nil (b.parent, b.name)),
        if_neg (List.not_mem_nil (b.parent, b.name)),
        if_neg (List.not_mem_nil
          ((chooseFile (c :: cs)).parent, (chooseFile (c :: cs)).name)),
        if_neg (List.not_mem_nil
          ((chooseFile (c :: cs)).parent, (chooseFile (c :: cs)).name))]
      by_cases hhash : h b.content = h (chooseFile (c :: cs)).content
      · rw [if_pos hhash, if_pos hhash]
        exact ⟨by simp [hdirs], by simp [hres], by simp [hid],
          by simp [hmiss], by simp [hcm],
          by simp [hdec, dryToLive], by simp [herrd], by simp [herrl],
          filesRel_weaken hfiles⟩
      · rw [if_neg hhash, if_neg hhash]
        simp only [if_true, Bool.false_eq_true, if_false]
        have htpair : ((chooseFile (c :: cs)).parent,
            normalize_guid_filename (chooseFile (c :: cs)).name) =
            dpairOf b := by
          have hmem : chooseFile (c :: cs) ∈
              candidatesFor d.files (dpairOf b) := by
            rw [hcd]
            exact chooseFile_mem c cs
          exact (mem_candidatesFor hmem).2
        refine ⟨by simp [hdirs], by simp [hres], by simp [hid],
          by simp [hmiss], by simp [hcm],
          by simp [hdec, dryToLive], by simp [herrd], by simp [herrl], ?_⟩
        refine filesRel_dcsUpdate (filesRel_weaken hfiles) ?_
        rw [htpair]
        exact List.mem_append_right _ (List.mem_cons_self _ _)
  · rw [if_neg hmemd, if_neg hmemd]
    dsimp only
    by_cases hcim : cim
    · rw [if_pos hcim, if_pos hcim]
      exact ⟨by simp [hdirs], by simp [hres], by simp [hid],
        by simp [hmiss], by simp [hcm],
        by simp [hdec, dryToLive], by simp [herrd], by simp [herrl],
        filesRel_append_self (filesRel_weaken hfiles) b⟩
    · rw [if_neg hcim, if_neg hcim]
      exact ⟨by simp [hdirs], by simp [hres], by simp [hid],
        by simp [hmiss], by simp [hcm],
        by simp [hdec, dryToLive], by simp [herrd], by simp [herrl],
        filesRel_weaken hfiles⟩

theorem dcsRun_sim (h : Str → Str) (cim : Bool) :
    ∀ (l : List DFile) (processed : List (List Str × Str)) (d lv : DcsSt),
      SimRel processed d lv →
      (∀ b ∈ l, dpairOf b ∉ processed) →
      List.Pairwise (fun a b => dpairOf a ≠ dpairOf b) l →
      SimRel (processed ++ l.map dpairOf)
        (dcsRun h [] cim true l d) (dcsRun h [] cim false l lv) := by
  intro l
  induction l with
  | nil =>
    intro processed d lv hrel _ _
    simpa [dcsRun] using hrel
  | cons b bs ih =>
    intro processed d lv hrel hnp hpw
    obtain ⟨h1, h2, h3, h4, h5, h6, h7, h8, h9⟩ := hrel
    have hconsD : dcsRun h [] cim true (b :: bs) d =
        dcsRun h [] cim true bs
          (if d.err.isSome then d else dcsStep h [] cim true b d) := rfl
    have hconsL : dcsRun h [] cim false (b :: bs) lv =
        dcsRun h [] cim false bs
          (if lv.err.isSome then lv else dcsStep h [] cim false b lv) := rfl
    rw [hconsD, hconsL, if_neg (by rw [h7]; simp), if_neg (by rw [h8]; simp)]
    have hstep := dcsStep_sim h cim b
      ⟨h1, h2, h3, h4, h5, h6, h7, h8, h9⟩
      (hnp b (List.mem_cons_self b bs))
    have hnp' : ∀ b' ∈ bs, dpairOf b' ∉ processed ++ [dpairOf b] := by
      intro b' hb' hmem
      rcases List.mem_append.mp hmem with hm | hm
      · exact hnp b' (List.mem_cons_of_mem b hb') hm
      · have hm' : dpairOf b' = dpairOf b := by simpa using hm
        exact (List.pairwise_cons.mp hpw).1 b' hb' hm'.symm
    have hrec := ih (processed ++ [dpairOf b]) _ _ hstep hnp'
      (List.pairwise_cons.mp hpw).2
    simpa [List.append_assoc] using hrec

/-- Backup tree for C5's counterexample: two backup files with the same
`(folder, key)` pair but different contents. -/
def c5bak : DcsFs :=
  ⟨[["joystick".data]],
   [⟨["joystick".data],
     "A {11111111-1111-1111-1111-111111111111}.diff.lua".data, "x".data, 1⟩,
    ⟨["joystick".data],
     "A {22222222-2222-2222-2222-222222222222}.diff.lua".data, "y".data, 1⟩]⟩

/-- Live tree for C5's counterexample. -/
def c5liv : DcsFs :=
  ⟨[["joystick".data]],
   [⟨["joystick".data],
     "A {33333333-3333-3333-3333-333333333333}.diff.lua".data, "y".data, 2⟩]⟩

/-- Claim C5, counterexample.  With two backup files sharing the key `A`
(contents `x` then `y`) and a live target of content `y`, a dry run
reports one would-restore (`x` mismatches, then `y` compares identical
against the *unmodified* target) while a live run restores twice (the
first restore changes the bytes the second comparison reads): the
dry-run classification does not match the live run's. -/
theorem claim_C5_counterexample :
    (restore_dcs id [] false true (some c5bak) (some c5liv) 10).restored = 1 ∧
    (restore_dcs id [] false false (some c5bak) (some c5liv) 10).restored = 2 := by
  constructor <;> decide

/-- Claim C5, amended.  A dry dcs run never touches an existing live
file (it only ever appends copy-if-missing files) and never produces a
`Restored` decision (the AtomicMutator is not invoked); *provided no two
eligible backup files share a `(folder, key)` pair*, its decision
sequence equals the live run's with `Restored` read as would-restore,
and its restored count equals the live run's.  The okb remapper in
dry-run mode likewise rewrites nothing and archives the same plan set as
a live run. -/
theorem claim_C5 (h : Str → Str) (cim zipOk : Bool) (bfs lfs : DcsFs)
    (clock : Nat) (dm : List ((Str × Str) × List Str))
    (files : List (Str × OkbDoc))
    (hpw : List.Pairwise (fun a b => dpairOf a ≠ dpairOf b)
      (bfs.files.filter dcsEligible)) :
    (∃ app, (restore_dcs h [] cim true (some bfs) (some lfs) clock).files =
      lfs.files ++ app) ∧
    (∀ p n, DDecision.restoredD p n ∉
      (restore_dcs h [] cim true (some bfs) (some lfs) clock).decisions) ∧
    (restore_dcs h [] cim false (some bfs) (some lfs) clock).decisions =
      (restore_dcs h [] cim true (some bfs) (some lfs)
        clock).decisions.map dryToLive ∧
    (restore_dcs h [] cim false (some bfs) (some lfs) clock).restored =
      (restore_dcs h [] cim true (some bfs) (some lfs) clock).restored ∧
    (okb_main dm files true zipOk).outFiles = files ∧
    (∀ nm, Event.wroteDoc nm ∉ (okb_main dm files true zipOk).trace) ∧
    (okb_main dm files true zipOk).zipEntries =
      (okb_main dm files false zipOk).zipEntries := by
  have hinit : SimRel [] (dcsInit lfs clock) (dcsInit lfs clock) :=
    ⟨rfl, rfl, rfl, rfl, rfl, by simp [dcsInit], rfl, rfl,
      List.forall₂_same.mpr (fun x _ => fileRel_refl x)⟩
  have hsim := dcsRun_sim h cim (bfs.files.filter dcsEligible) []
    (dcsInit lfs clock) (dcsInit lfs clock) hinit (by simp) hpw
  have hdry : restore_dcs h [] cim true (some bfs) (some lfs) clock =
      dcsRun h [] cim true (bfs.files.filter dcsEligible)
        (dcsInit lfs clock) := rfl
  have hlive : restore_dcs h [] cim false (some bfs) (some lfs) clock =
      dcsRun h [] cim false (bfs.files.filter dcsEligible)
        (dcsInit lfs clock) := rfl
  refine ⟨?_, ?_, ?_, ?_, ?_, ?_, ?_⟩
  · obtain ⟨ds, app, _, hf, _⟩ := dcsRun_dry_shape h [] cim
      (bfs.files.filter dcsEligible) (dcsInit lfs clock)
    refine ⟨app, ?_⟩
    rw [hdry, hf]
    rfl
  · intro p n
    exact restore_dcs_dry_no_replace h [] cim (some bfs) (some lfs) clock p n
  · rw [hdry, hlive]
    exact hsim.2.2.2.2.2.1
  · rw [hdry, hlive]
    exact hsim.2.1.symm
  · unfold okb_main
    cases hpl : okbPlans dm files with
    | nil => rfl
    | cons p ps => cases zipOk <;> rfl
  · intro nm hm
    unfold okb_main at hm
    cases hpl : okbPlans dm files with
    | nil =>
      rw [hpl] at hm
      simp at hm
    | cons p ps =>
      rw [hpl] at hm
      cases zipOk with
      | false => simp at hm
      | true => simp at hm
  · unfold okb_main
    cases hpl : okbPlans dm files with
    | nil => rfl
    | cons p ps => cases zipOk <;> rfl

/-- Live file set for C5's witness. -/
def c5wliv : DcsFs :=
  ⟨[["joystick".data]],
   [⟨["joystick".data],
     "B {33333333-3333-3333-3333-333333333333}.diff.lua".data, "z".data, 2⟩]⟩

/-- Backup file set for C5's witness (a single eligible file, so the
pairwise-distinct-keys hypothesis holds). -/
def c5wbak : DcsFs :=
  ⟨[["joystick".data]],
   [⟨["joystick".data],
     "B {11111111-1111-1111-1111-111111111111}.diff.lua".data, "x".data, 1⟩]⟩

/-- Witness for C5 at a concrete input. -/
theorem claim_C5_witness :
    (restore_dcs id [] false false (some c5wbak) (some c5wliv) 10).restored =
      (restore_dcs id [] false true (some c5wbak) (some c5wliv) 10).restored :=
  (claim_C5 id false true c5wbak c5wliv 10 [] [] (by decide)).2.2.2.1

/-!
## Idempotence (claim C7)

Helper lemmas about candidate lists under the run's mutations, used to
characterise the post-state of a live dcs run and to show a second run
finds every processed key content-identical.
-/

theorem candidatesFor_append (xs ys : List DFile) (pr : List Str × Str) :
    candidatesFor (xs ++ ys) pr = candidatesFor xs pr ++ candidatesFor ys pr := by
  unfold candidatesFor
  rw [List.filter_append]

theorem candidatesFor_single_eligible {g : DFile} (he : dcsEligible g) :
    candidatesFor [g] (dpairOf g) = [g] := by
  unfold candidatesFor
  have hc : g.parent = (dpairOf g).1 ∧ diffLuaLast2 g.name ∧
      normalize_guid_filename g.name = (dpairOf g).2 := by
    refine ⟨rfl, ?_, rfl⟩
    unfold dcsEligible at he
    simp only [Bool.and_eq_true, decide_eq_true_eq] at he
    exact he.2.1
  simp [hc]

theorem candidatesFor_single_other {g : DFile} {pr : List Str × Str}
    (hne : dpairOf g ≠ pr) : candidatesFor [g] pr = [] := by
  unfold candidatesFor
  by_cases hc : g.parent = pr.1 ∧ diffLuaLast2 g.name ∧
      normalize_guid_filename g.name = pr.2
  · exfalso
    apply hne
    unfold dpairOf
    rw [hc.1, hc.2.2]
  · simp [hc]

/-- The update function applied by `dcsUpdate`. -/
def dUpd (tp : List Str) (tn : Str) (c : Str) (m : Nat) (f : DFile) : DFile :=
  if f.parent = tp ∧ f.name = tn then ⟨f.parent, f.name, c, m⟩ else f

theorem dcsUpdate_eq_map (files : List DFile) (tp : List Str) (tn c : Str)
    (m : Nat) : dcsUpdate files tp tn c m = files.map (dUpd tp tn c m) := rfl

theorem dUpd_parent (tp : List Str) (tn c : Str) (m : Nat) (f : DFile) :
    (dUpd tp tn c m f).parent = f.parent := by
  unfold dUpd
  by_cases hf : f.parent = tp ∧ f.name = tn
  · rw [if_pos hf]
  · rw [if_neg hf]

theorem dUpd_name (tp : List Str) (tn c : Str) (m : Nat) (f : DFile) :
    (dUpd tp tn c m f).name = f.name := by
  unfold dUpd
  by_cases hf : f.parent = tp ∧ f.name = tn
  · rw [if_pos hf]
  · rw [if_neg hf]

theorem candidatesFor_dcsUpdate (files : List DFile) (tp : List Str)
    (tn c : Str) (m : Nat) (pr : List Str × Str) :
    candidatesFor (dcsUpdate files tp tn c m) pr =
      (candidatesFor files pr).map (dUpd tp tn c m) := by
  rw [dcsUpdate_eq_map]
  induction files with
  | nil => rfl
  | cons f fs ih =>
    rw [List.map_cons]
    unfold candidatesFor at ih ⊢
    rw [List.filter_cons, List.filter_cons]
    by_cases hc : f.parent = pr.1 ∧ diffLuaLast2 f.name ∧
        normalize_guid_filename f.name = pr.2
    · rw [if_pos (by
        simp only [dUpd_parent, dUpd_name, decide_eq_true_eq]
        exact hc),
        if_pos (by simp only [decide_eq_true_eq]; exact hc),
        List.map_cons, ih]
    · rw [if_neg (by
        simp only [dUpd_parent, dUpd_name, decide_eq_true_eq]
        exact hc),
        if_neg (by simp only [decide_eq_true_eq]; exact hc)]
      exact ih

theorem candidatesFor_dcsUpdate_other {files : List DFile} {tp : List Str}
    {tn c : Str} {m : Nat} {pr : List Str × Str}
    (hne : (tp, normalize_guid_filename tn) ≠ pr) :
    candidatesFor (dcsUpdate files tp tn c m) pr = candidatesFor files pr := by
  rw [candidatesFor_dcsUpdate]
  apply List.map_congr_left ?_ |>.trans (List.map_id _)
  intro f hf
  have hc := List.of_mem_filter hf
  simp only [decide_eq_true_eq] at hc
  unfold dUpd
  by_cases hft : f.parent = tp ∧ f.name = tn
  · exfalso
    apply hne
    rw [← hft.1, ← hft.2, hc.1, hc.2.2]
  · rw [if_neg hft]
    exact rfl

theorem chooseFile_strict_max (c : DFile) (cs : List DFile) (r : DFile)
    (hr : r ∈ c :: cs)
    (hmax : ∀ q ∈ c :: cs, q ≠ r → q.mtime < r.mtime) :
    chooseFile (c :: cs) = r := by
  simp only [chooseFile]
  have haux : ∀ (l : List DFile) (b : DFile),
      (r = b ∨ r ∈ l) →
      (∀ q, (q = b ∨ q ∈ l) → q ≠ r → q.mtime < r.mtime) →
      l.foldl (fun best p => if best.mtime < p.mtime then p else best) b = r := by
    intro l
    induction l with
    | nil =>
      intro b hrb hq
      rcases hrb with hrb | hrb
      · rw [List.foldl_nil, hrb]
      · exact absurd hrb (List.not_mem_nil r)
    | cons x xs ih =>
      intro b hrb hq
      rw [List.foldl_cons]
      have hq2 : ∀ q, (q = (if b.mtime < x.mtime then x else b) ∨ q ∈ xs) →
          q ≠ r → q.mtime < r.mtime := by
        intro q hq' hqr
        rcases hq' with hh | hh
        · by_cases hbx : b.mtime < x.mtime
          · rw [if_pos hbx] at hh
            exact hq q (Or.inr (hh ▸ List.mem_cons_self x xs)) hqr
          · rw [if_neg hbx] at hh
            exact hq q (Or.inl hh) hqr
        · exact hq q (Or.inr (List.mem_cons_of_mem x hh)) hqr
      apply ih _ ?_ hq2
      rcases hrb with hrb | hrb
      · by_cases hbx : b.mtime < x.mtime
        · by_cases hxr : x = r
          · left
            rw [if_pos hbx, hxr]
          · exfalso
            have h1 : x.mtime < r.mtime :=
              hq x (Or.inr (List.mem_cons_self x xs)) hxr
            have h2 : r.mtime < x.mtime := by
              rw [hrb]
              exact hbx
            exact absurd (lt_trans h1 h2) (lt_irrefl _)
        · left
          rw [if_neg hbx, hrb]
      · rcases List.mem_cons.mp hrb with hrx | hrxs
        · by_cases hbx : b.mtime < x.mtime
          · left
            rw [if_pos hbx, hrx]
          · by_cases hbr : b = r
            · left
              rw [if_neg hbx, hbr]
            · exfalso
              have h1 : b.mtime < r.mtime := hq b (Or.inl rfl) hbr
              rw [hrx] at h1
              exact hbx h1
        · right
          exact hrxs
  rcases List.mem_cons.mp hr with hrc | hrcs
  · exact haux cs c (Or.inl hrc) (fun q hq' hqr => by
      rcases hq' with hh | hh
      · exact hmax q (hh ▸ List.mem_cons_self c cs) hqr
      · exact hmax q (List.mem_cons_of_mem c hh) hqr)
  · exact haux cs c (Or.inr hrcs) (fun q hq' hqr => by
      rcases hq' with hh | hh
      · exact hmax q (hh ▸ List.mem_cons_self c cs) hqr
      · exact hmax q (List.mem_cons_of_mem c hh) hqr)

/-!
## Claim C7: idempotence

`xmlWithKey fs k` is the sublist of files a fresh `build_index` would put
into bucket `k`.  The first run establishes, for every backup-index entry,
that its live bucket already hashes equal to its backup artifact (`BQ`);
the second run then only ever takes the `Identical` / `missing` branches.
-/

def xmlWithKey (fs : List File) (k : Str) : List File :=
  fs.filter (fun f => isXmlName f.name ∧ normalize_key f.name = k)

theorem mem_xmlWithKey {fs : List File} {k : Str} {f : File} :
    f ∈ xmlWithKey fs k ↔
      f ∈ fs ∧ isXmlName f.name = true ∧ normalize_key f.name = k := by
  unfold xmlWithKey
  rw [List.mem_filter]
  simp only [decide_eq_true_eq]

theorem xmlWithKey_cons (f : File) (fs : List File) (k : Str) :
    xmlWithKey (f :: fs) k =
      if isXmlName f.name = true ∧ normalize_key f.name = k
      then f :: xmlWithKey fs k else xmlWithKey fs k := by
  unfold xmlWithKey
  rw [List.filter_cons]
  by_cases hc : isXmlName f.name = true ∧ normalize_key f.name = k
  · rw [if_pos (by simpa using hc), if_pos hc]
  · rw [if_neg (by simpa using hc), if_neg hc]

theorem xmlWithKey_append (fs gs : List File) (k : Str) :
    xmlWithKey (fs ++ gs) k = xmlWithKey fs k ++ xmlWithKey gs k := by
  unfold xmlWithKey
  rw [List.filter_append]

theorem mem_names_xmlWithKey {fs : List File} {k n : Str}
    (h : n ∈ (xmlWithKey fs k).map File.name) :
    isXmlName n = true ∧ normalize_key n = k ∧ (fsFind fs n).isSome = true := by
  obtain ⟨f, hf, hn⟩ := List.mem_map.mp h
  obtain ⟨hmem, hx, hk⟩ := mem_xmlWithKey.mp hf
  subst hn
  refine ⟨hx, hk, ?_⟩
  unfold fsFind
  cases hfind : List.find? (fun g => g.name = f.name) fs with
  | some g => rfl
  | none =>
    exfalso
    have := List.find?_eq_none.mp hfind f hmem
    simp at this

theorem fsFind_mem_name {fs : List File} {n : Str} {f : File}
    (h : fsFind fs n = some f) : f ∈ fs ∧ f.name = n := by
  unfold fsFind at h
  refine ⟨List.mem_of_find?_eq_some h, ?_⟩
  have := List.find?_some h
  simpa using this

theorem fsFind_xmlWithKey {fs : List File} {k n : Str}
    (hx : isXmlName n = true) (hk : normalize_key n = k) :
    fsFind (xmlWithKey fs k) n = fsFind fs n := by
  induction fs with
  | nil => rfl
  | cons f fs ih =>
    rw [xmlWithKey_cons]
    by_cases hn : f.name = n
    · have hc : isXmlName f.name = true ∧ normalize_key f.name = k := by
        rw [hn]
        exact ⟨hx, hk⟩
      rw [if_pos hc]
      unfold fsFind
      rw [List.find?_cons_of_pos _ (by simp [hn]),
          List.find?_cons_of_pos _ (by simp [hn])]
    · by_cases hc : isXmlName f.name = true ∧ normalize_key f.name = k
      · rw [if_pos hc]
        unfold fsFind at ih ⊢
        rw [List.find?_cons_of_neg _ (by simp [hn]),
            List.find?_cons_of_neg _ (by simp [hn])]
        exact ih
      · rw [if_neg hc]
        unfold fsFind at ih ⊢
        rw [List.find?_cons_of_neg _ (by simp [hn])]
        exact ih

theorem fsFind_fsUpdate_ne {fs : List File} {t : Str} {c : Str} {m : Nat}
    {n : Str} (hn : n ≠ t) : fsFind (fsUpdate fs t c m) n = fsFind fs n := by
  induction fs with
  | nil => rfl
  | cons f fs ih =>
    unfold fsUpdate at ih ⊢
    rw [List.map_cons]
    by_cases hf : f.name = t
    · rw [if_pos hf]
      unfold fsFind at ih ⊢
      rw [List.find?_cons_of_neg _ (by
            simp only [decide_eq_true_eq]
            intro e
            exact hn (e.symm.trans hf)),
          List.find?_cons_of_neg _ (by
            simp only [decide_eq_true_eq]
            intro e
            exact hn (e.symm.trans hf))]
      exact ih
    · rw [if_neg hf]
      by_cases hfn : f.name = n
      · unfold fsFind
        rw [List.find?_cons_of_pos _ (by simp [hfn]),
            List.find?_cons_of_pos _ (by simp [hfn])]
      · unfold fsFind at ih ⊢
        rw [List.find?_cons_of_neg _ (by simp [hfn]),
            List.find?_cons_of_neg _ (by simp [hfn])]
        exact ih

theorem fsFind_fsUpdate_self {fs : List File} {t : Str} {f : File}
    (h : fsFind fs t = some f) (c : Str) (m : Nat) :
    fsFind (fsUpdate fs t c m) t = some ⟨f.name, c, m⟩ := by
  induction fs with
  | nil => exact absurd h (by simp [fsFind])
  | cons g fs ih =>
    unfold fsUpdate at ih ⊢
    rw [List.map_cons]
    by_cases hg : g.name = t
    · rw [if_pos hg]
      unfold fsFind at h ⊢
      rw [List.find?_cons_of_pos _ (by simp [hg])] at h
      rw [List.find?_cons_of_pos _ (by simp [hg])]
      cases h
      rfl
    · rw [if_neg hg]
      unfold fsFind at h ih ⊢
      rw [List.find?_cons_of_neg _ (by simp [hg])] at h
      rw [List.find?_cons_of_neg _ (by simp [hg])]
      exact ih h

theorem contentOf_fsUpdate_self {fs : List File} {t : Str}
    (h : (fsFind fs t).isSome = true) (c : Str) (m : Nat) :
    contentOf (fsUpdate fs t c m) t = c := by
  obtain ⟨f, hf⟩ := Option.isSome_iff_exists.mp h
  unfold contentOf
  rw [fsFind_fsUpdate_self hf c m]
  rfl

theorem mtimeOf_fsUpdate_self {fs : List File} {t : Str}
    (h : (fsFind fs t).isSome = true) (c : Str) (m : Nat) :
    mtimeOf (fsUpdate fs t c m) t = m := by
  obtain ⟨f, hf⟩ := Option.isSome_iff_exists.mp h
  unfold mtimeOf
  rw [fsFind_fsUpdate_self hf c m]
  rfl

theorem mtimeOf_lt_of_bound {fs : List File} {cl : Nat}
    (hinv : ∀ f ∈ fs, f.mtime < cl) (hpos : 0 < cl) (n : Str) :
    mtimeOf fs n < cl := by
  unfold mtimeOf
  cases hfind : fsFind fs n with
  | none => exact hpos
  | some f =>
    have := fsFind_mem_name hfind
    exact hinv f this.1

theorem choose_target_congr {fs fs2 : List File} {ns : List Str}
    (hmt : ∀ n ∈ ns, mtimeOf fs n = mtimeOf fs2 n) :
    choose_target fs ns = choose_target fs2 ns := by
  cases ns with
  | nil => rfl
  | cons n0 rest =>
    simp only [choose_target]
    have haux : ∀ (l : List Str) (b : Str),
        (∀ n ∈ l, mtimeOf fs n = mtimeOf fs2 n) →
        mtimeOf fs b = mtimeOf fs2 b →
        l.foldl (fun best m => if mtimeOf fs best < mtimeOf fs m then m else best) b =
        l.foldl (fun best m => if mtimeOf fs2 best < mtimeOf fs2 m then m else best) b := by
      intro l
      induction l with
      | nil => intro b _ _; rfl
      | cons x xs ih =>
        intro b hl hb
        rw [List.foldl_cons, List.foldl_cons]
        have hx : mtimeOf fs x = mtimeOf fs2 x :=
          hl x (List.mem_cons_self x xs)
        have hl2 : ∀ n ∈ xs, mtimeOf fs n = mtimeOf fs2 n :=
          fun n hn => hl n (List.mem_cons_of_mem x hn)
        by_cases hlt : mtimeOf fs b < mtimeOf fs x
        · rw [if_pos hlt, if_pos (by rw [← hb, ← hx]; exact hlt)]
          exact ih x hl2 hx
        · rw [if_neg hlt, if_neg (by rw [← hb, ← hx]; exact hlt)]
          exact ih b hl2 hb
    exact haux rest n0
      (fun n hn => hmt n (List.mem_cons_of_mem n0 hn))
      (hmt n0 (List.mem_cons_self n0 rest))

theorem choose_target_strict_max (fs : List File) (n0 : Str) (ns : List Str)
    (t : Str) (ht : t ∈ n0 :: ns)
    (hmax : ∀ n ∈ n0 :: ns, n ≠ t → mtimeOf fs n < mtimeOf fs t) :
    choose_target fs (n0 :: ns) = t := by
  simp only [choose_target]
  have haux : ∀ (l : List Str) (b : Str),
      (t = b ∨ t ∈ l) →
      (∀ n, (n = b ∨ n ∈ l) → n ≠ t → mtimeOf fs n < mtimeOf fs t) →
      l.foldl (fun best m => if mtimeOf fs best < mtimeOf fs m then m else best) b
        = t := by
    intro l
    induction l with
    | nil =>
      intro b htb hq
      rcases htb with htb | htb
      · rw [List.foldl_nil, htb]
      · exact absurd htb (List.not_mem_nil t)
    | cons x xs ih =>
      intro b htb hq
      rw [List.foldl_cons]
      have hq2 : ∀ n, (n = (if mtimeOf fs b < mtimeOf fs x then x else b) ∨
          n ∈ xs) → n ≠ t → mtimeOf fs n < mtimeOf fs t := by
        intro n hn hnt
        rcases hn with hh | hh
        · by_cases hbx : mtimeOf fs b < mtimeOf fs x
          · rw [if_pos hbx] at hh
            exact hq n (Or.inr (hh ▸ List.mem_cons_self x xs)) hnt
          · rw [if_neg hbx] at hh
            exact hq n (Or.inl hh) hnt
        · exact hq n (Or.inr (List.mem_cons_of_mem x hh)) hnt
      apply ih _ ?_ hq2
      rcases htb with htb | htb
      · by_cases hbx : mtimeOf fs b < mtimeOf fs x
        · by_cases hxt : x = t
          · left
            rw [if_pos hbx, hxt]
          · exfalso
            have h1 : mtimeOf fs x < mtimeOf fs t :=
              hq x (Or.inr (List.mem_cons_self x xs)) hxt
            have h2 : mtimeOf fs t < mtimeOf fs x := by
              rw [htb]
              exact hbx
            exact absurd (lt_trans h1 h2) (lt_irrefl _)
        · left
          rw [if_neg hbx, htb]
      · rcases List.mem_cons.mp htb with htx | htxs
        · by_cases hbx : mtimeOf fs b < mtimeOf fs x
          · left
            rw [if_pos hbx, htx]
          · by_cases hbt : b = t
            · left
              rw [if_neg hbx, hbt]
            · exfalso
              have h1 : mtimeOf fs b < mtimeOf fs t := hq b (Or.inl rfl) hbt
              rw [htx] at h1
              exact hbx h1
        · right
          exact htxs
  rcases List.mem_cons.mp ht with htc | htcs
  · exact haux ns n0 (Or.inl htc) (fun n hn hnt => by
      rcases hn with hh | hh
      · exact hmax n (hh ▸ List.mem_cons_self n0 ns) hnt
      · exact hmax n (List.mem_cons_of_mem n0 hh) hnt)
  · exact haux ns n0 (Or.inr htcs) (fun n hn hnt => by
      rcases hn with hh | hh
      · exact hmax n (hh ▸ List.mem_cons_self n0 ns) hnt
      · exact hmax n (List.mem_cons_of_mem n0 hh) hnt)

theorem fsUpdate_eq_self {fs : List File} {t : Str}
    (h : ∀ f ∈ fs, f.name ≠ t) (c : Str) (m : Nat) :
    fsUpdate fs t c m = fs := by
  unfold fsUpdate
  conv_rhs => rw [← List.map_id fs]
  apply List.map_congr_left
  intro f hf
  rw [if_neg (by
    intro e
    exact h f hf e)]
  rfl

theorem xmlWithKey_fsUpdate (fs : List File) (t : Str) (c : Str) (m : Nat)
    (k : Str) :
    xmlWithKey (fsUpdate fs t c m) k = fsUpdate (xmlWithKey fs k) t c m := by
  induction fs with
  | nil => rfl
  | cons f fs ih =>
    unfold fsUpdate at ih ⊢
    rw [List.map_cons, xmlWithKey_cons]
    by_cases hf : f.name = t
    · rw [if_pos hf]
      rw [xmlWithKey_cons]
      by_cases hc : isXmlName f.name = true ∧ normalize_key f.name = k
      · rw [if_pos (by exact hc), if_pos hc, List.map_cons, if_pos hf]
        rw [ih]
      · rw [if_neg (by exact hc), if_neg hc]
        exact ih
    · rw [if_neg hf]
      rw [xmlWithKey_cons]
      by_cases hc : isXmlName f.name = true ∧ normalize_key f.name = k
      · rw [if_pos hc, if_pos hc, List.map_cons, if_neg hf]
        rw [ih]
      · rw [if_neg hc, if_neg hc]
        exact ih

theorem xmlWithKey_fsUpdate_other {fs : List File} {t : Str} {k : Str}
    (hk : ¬ (isXmlName t = true ∧ normalize_key t = k)) (c : Str) (m : Nat) :
    xmlWithKey (fsUpdate fs t c m) k = xmlWithKey fs k := by
  rw [xmlWithKey_fsUpdate]
  apply fsUpdate_eq_self
  intro f hf he
  obtain ⟨_, hx, hkey⟩ := mem_xmlWithKey.mp hf
  exact hk ⟨he ▸ hx, he ▸ hkey⟩

theorem xmlWithKey_append_other {fs : List File} {g : File} {k : Str}
    (hk : ¬ (isXmlName g.name = true ∧ normalize_key g.name = k)) :
    xmlWithKey (fs ++ [g]) k = xmlWithKey fs k := by
  rw [xmlWithKey_append, xmlWithKey_cons]
  rw [if_neg hk]
  unfold xmlWithKey
  rw [List.filter_nil, List.append_nil]

theorem xmlWithKey_append_hit {fs : List File} {g : File} {k : Str}
    (hk : isXmlName g.name = true ∧ normalize_key g.name = k) :
    xmlWithKey (fs ++ [g]) k = xmlWithKey fs k ++ [g] := by
  rw [xmlWithKey_append, xmlWithKey_cons]
  rw [if_pos hk]
  unfold xmlWithKey
  rw [List.filter_nil]

theorem idxGet_indexInsert (idx : List (Str × List Str)) (km : Str)
    (n k : Str) :
    idxGet (indexInsert idx km n) k =
      idxGet idx k ++ (if km = k then [n] else []) := by
  induction idx with
  | nil =>
    simp only [indexInsert, idxGet, List.nil_append]
  | cons e rest ih =>
    simp only [indexInsert]
    by_cases he : e.1 = km
    · rw [if_pos he]
      simp only [idxGet]
      by_cases hek : e.1 = k
      · rw [if_pos hek, if_pos hek, if_pos (he ▸ hek)]
      · rw [if_neg hek, if_neg hek,
            if_neg (fun hk => hek (he.trans hk)), List.append_nil]
    · rw [if_neg he]
      simp only [idxGet]
      by_cases hek : e.1 = k
      · rw [if_pos hek, if_pos hek,
            if_neg (fun hk => he (hek.trans hk.symm)), List.append_nil]
      · rw [if_neg hek, if_neg hek]
        exact ih

theorem idxGet_build_foldl_eq (fl : List File) :
    ∀ (idx : List (Str × List Str)) (k : Str),
      idxGet (fl.foldl
        (fun i f => indexInsert i (normalize_key f.name) f.name) idx) k =
      idxGet idx k ++
        (fl.filter (fun f => normalize_key f.name = k)).map File.name := by
  induction fl with
  | nil => intro idx k; simp
  | cons f fl ih =>
    intro idx k
    rw [List.foldl_cons, ih, idxGet_indexInsert, List.filter_cons]
    by_cases hk : normalize_key f.name = k
    · rw [if_pos hk, if_pos (by simpa using hk), List.map_cons,
          List.append_assoc]
      rfl
    · rw [if_neg hk, if_neg (by simpa using hk), List.append_nil]

theorem filter_xml_key (fs : List File) (k : Str) :
    (fs.filter (fun f => isXmlName f.name)).filter
        (fun f => normalize_key f.name = k) = xmlWithKey fs k := by
  induction fs with
  | nil => rfl
  | cons f fs ih =>
    rw [List.filter_cons]
    by_cases hx : isXmlName f.name = true
    · rw [if_pos hx, List.filter_cons, xmlWithKey_cons]
      by_cases hk : normalize_key f.name = k
      · rw [if_pos (by simpa using hk), if_pos ⟨hx, hk⟩, ih]
      · rw [if_neg (by simpa using hk), if_neg (fun hc => hk hc.2), ih]
    · rw [if_neg hx, xmlWithKey_cons, if_neg (fun hc => hx hc.1), ih]

theorem idxGet_build_index_eq (fs : List File) (k : Str) :
    idxGet (build_index (some fs)) k = (xmlWithKey fs k).map File.name := by
  unfold build_index
  rw [idxGet_build_foldl_eq]
  simp only [idxGet, List.nil_append]
  unfold list_xml_files
  simp only [Option.getD_some]
  rw [filter_xml_key]

theorem mem_keys_indexInsert {idx : List (Str × List Str)} {km : Str}
    {n k : Str} :
    k ∈ (indexInsert idx km n).map Prod.fst ↔
      k ∈ idx.map Prod.fst ∨ k = km := by
  induction idx with
  | nil => simp [indexInsert]
  | cons e rest ih =>
    simp only [indexInsert]
    by_cases he : e.1 = km
    · rw [if_pos he]
      simp only [List.map_cons, List.mem_cons]
      constructor
      · intro hh
        rcases hh with hh | hh
        · exact Or.inl (Or.inl hh)
        · exact Or.inl (Or.inr hh)
      · intro hh
        rcases hh with (hh | hh) | hh
        · exact Or.inl hh
        · exact Or.inr hh
        · exact Or.inl (hh.trans he.symm)
    · rw [if_neg he]
      simp only [List.map_cons, List.mem_cons, ih]
      tauto

theorem nodup_keys_indexInsert {idx : List (Str × List Str)} {km : Str}
    {n : Str} (h : (idx.map Prod.fst).Nodup) :
    ((indexInsert idx km n).map Prod.fst).Nodup := by
  induction idx with
  | nil => simp [indexInsert]
  | cons e rest ih =>
    simp only [indexInsert]
    rw [List.map_cons] at h
    have h1 := List.nodup_cons.mp h
    by_cases he : e.1 = km
    · rw [if_pos he, List.map_cons]
      exact List.nodup_cons.mpr ⟨h1.1, h1.2⟩
    · rw [if_neg he, List.map_cons]
      refine List.nodup_cons.mpr ⟨?_, ih h1.2⟩
      intro hmem
      rcases mem_keys_indexInsert.mp hmem with hh | hh
      · exact h1.1 hh
      · exact he hh

theorem build_index_keys_nodup (d : Option (List File)) :
    ((build_index d).map Prod.fst).Nodup := by
  unfold build_index
  have haux : ∀ (l : List File) (idx : List (Str × List Str)),
      (idx.map Prod.fst).Nodup →
      ((l.foldl (fun i f => indexInsert i (normalize_key f.name) f.name)
        idx).map Prod.fst).Nodup := by
    intro l
    induction l with
    | nil => intro idx h; exact h
    | cons f l ih =>
      intro idx h
      rw [List.foldl_cons]
      exact ih _ (nodup_keys_indexInsert h)
  exact haux _ [] (by simp)

/-- An index entry is well-formed: a nonempty bucket of xml names that
all normalize to the entry key. -/
def EntryWf (e : Str × List Str) : Prop :=
  e.2 ≠ [] ∧ ∀ n ∈ e.2, isXmlName n = true ∧ normalize_key n = e.1

theorem entryWf_indexInsert {idx : List (Str × List Str)} {k n : Str}
    (h : ∀ e ∈ idx, EntryWf e)
    (hn : isXmlName n = true ∧ normalize_key n = k) :
    ∀ e ∈ indexInsert idx k n, EntryWf e := by
  induction idx with
  | nil =>
    intro e he
    simp only [indexInsert, List.mem_singleton] at he
    subst he
    refine ⟨by simp, ?_⟩
    intro m hm
    rw [List.mem_singleton] at hm
    subst hm
    exact hn
  | cons e0 rest ih =>
    intro e he
    simp only [indexInsert] at he
    by_cases h0 : e0.1 = k
    · rw [if_pos h0] at he
      rcases List.mem_cons.mp he with hh | hh
      · subst hh
        have hw := h e0 (List.mem_cons_self e0 rest)
        refine ⟨by simp, ?_⟩
        intro m hm
        rcases List.mem_append.mp hm with hm | hm
        · exact hw.2 m hm
        · rw [List.mem_singleton] at hm
          subst hm
          exact ⟨hn.1, hn.2.trans h0.symm⟩
      · exact h e (List.mem_cons_of_mem e0 hh)
    · rw [if_neg h0] at he
      rcases List.mem_cons.mp he with hh | hh
      · subst hh
        exact h e0 (List.mem_cons_self e0 rest)
      · exact ih (fun e2 he2 => h e2 (List.mem_cons_of_mem e0 he2)) e hh

theorem build_index_entry_wf {fs : List File} :
    ∀ e ∈ build_index (some fs), EntryWf e := by
  unfold build_index
  have haux : ∀ (l : List File) (idx : List (Str × List Str)),
      (∀ e ∈ idx, EntryWf e) →
      (∀ f ∈ l, isXmlName f.name = true) →
      ∀ e ∈ l.foldl
        (fun i f => indexInsert i (normalize_key f.name) f.name) idx,
        EntryWf e := by
    intro l
    induction l with
    | nil => intro idx h _; exact h
    | cons f l ih =>
      intro idx h hl
      rw [List.foldl_cons]
      exact ih _
        (entryWf_indexInsert h ⟨hl f (List.mem_cons_self f l), rfl⟩)
        (fun g hg => hl g (List.mem_cons_of_mem f hg))
  apply haux _ [] (by simp)
  intro f hf
  unfold list_xml_files at hf
  simp only [Option.getD_some] at hf
  simpa using List.of_mem_filter hf

theorem choose_target_single (fs : List File) (n : Str) :
    choose_target fs [n] = n := rfl

/-- After a completed pass, bucket `e.1` of a fresh live index hashes
equal to entry `e`'s chosen backup artifact (or is still empty, which
only happens with copy-if-missing off). -/
def BQ (h : Str → Str) (cim : Bool) (bfs : List File) (fs : List File)
    (e : Str × List Str) : Prop :=
  match (xmlWithKey fs e.1).map File.name with
  | [] => cim = false
  | t0 :: ts =>
    h (contentOf bfs (choose_target bfs e.2)) =
      h (contentOf fs (choose_target fs (t0 :: ts)))

theorem BQ_congr {h : Str → Str} {cim : Bool} {bfs fs fs2 : List File}
    {e : Str × List Str} (hx : xmlWithKey fs e.1 = xmlWithKey fs2 e.1)
    (hq : BQ h cim bfs fs e) : BQ h cim bfs fs2 e := by
  unfold BQ at hq ⊢
  rw [← hx]
  cases hns : (xmlWithKey fs e.1).map File.name with
  | nil =>
    rw [hns] at hq
    exact hq
  | cons t0 ts =>
    rw [hns] at hq
    dsimp only at hq ⊢
    have hfind : ∀ n ∈ t0 :: ts, fsFind fs n = fsFind fs2 n := by
      intro n hn
      have hmem : n ∈ (xmlWithKey fs e.1).map File.name := by
        rw [hns]
        exact hn
      obtain ⟨hxn, hkn, _⟩ := mem_names_xmlWithKey hmem
      rw [← @fsFind_xmlWithKey fs e.1 n hxn hkn, hx,
          fsFind_xmlWithKey hxn hkn]
    have hct : choose_target fs (t0 :: ts) = choose_target fs2 (t0 :: ts) :=
      choose_target_congr (fun n hn => by unfold mtimeOf; rw [hfind n hn])
    rw [← hct]
    have htm := choose_target_mem fs t0 ts
    have hc2 : contentOf fs2 (choose_target fs (t0 :: ts)) =
        contentOf fs (choose_target fs (t0 :: ts)) := by
      unfold contentOf
      rw [hfind _ htm]
    rw [hc2]
    exact hq

theorem bmsStep_establish (h : Str → Str) (cim : Bool) (bfs : List File)
    (lIdx : List (Str × List Str)) (st : BmsSt) (e : Str × List Str)
    (herr : st.err = none)
    (hfs : ∀ f ∈ st.files, f.mtime < st.clock)
    (hbfs : ∀ f ∈ bfs, f.mtime < st.clock)
    (hpos : 0 < st.clock)
    (hwf : EntryWf e)
    (hidx : idxGet lIdx e.1 = (xmlWithKey st.files e.1).map File.name) :
    (bmsStep h [] cim bfs lIdx st e).err = none ∧
    (∀ f ∈ (bmsStep h [] cim bfs lIdx st e).files,
      f.mtime < (bmsStep h [] cim bfs lIdx st e).clock) ∧
    st.clock ≤ (bmsStep h [] cim bfs lIdx st e).clock ∧
    (∀ k, k ≠ e.1 →
      xmlWithKey (bmsStep h [] cim bfs lIdx st e).files k =
        xmlWithKey st.files k) ∧
    BQ h cim bfs (bmsStep h [] cim bfs lIdx st e).files e := by
  cases hks : (xmlWithKey st.files e.1).map File.name with
  | nil =>
    have hempty : xmlWithKey st.files e.1 = [] := by
      cases hxk : xmlWithKey st.files e.1 with
      | nil => rfl
      | cons a l =>
        rw [hxk, List.map_cons] at hks
        exact absurd hks (by simp)
    rw [hks] at hidx
    simp only [bmsStep]
    rw [hidx]
    dsimp only
    by_cases hcim : cim = true
    · rw [if_pos hcim]
      have hbn : choose_target bfs e.2 ∈ e.2 := by
        cases hns : e.2 with
        | nil => exact absurd hns hwf.1
        | cons n0 ns => exact choose_target_mem bfs n0 ns
      have hbnf := hwf.2 _ hbn
      refine ⟨herr, ?_, le_refl _, ?_, ?_⟩
      · intro f hf
        rcases List.mem_append.mp hf with hf | hf
        · exact hfs f hf
        · rw [List.mem_singleton] at hf
          subst hf
          exact mtimeOf_lt_of_bound hbfs hpos _
      · intro k hk
        exact xmlWithKey_append_other (fun hc => hk (hc.2.symm.trans hbnf.2))
      · unfold BQ
        have hx1 : xmlWithKey (st.files ++
            [⟨choose_target bfs e.2, contentOf bfs (choose_target bfs e.2),
              mtimeOf bfs (choose_target bfs e.2)⟩]) e.1 =
            [⟨choose_target bfs e.2, contentOf bfs (choose_target bfs e.2),
              mtimeOf bfs (choose_target bfs e.2)⟩] := by
          rw [xmlWithKey_append_hit ⟨hbnf.1, hbnf.2⟩, hempty]
          rfl
        rw [hx1]
        dsimp only [List.map_cons, List.map_nil]
        rw [choose_target_single]
        have hfind0 : fsFind st.files (choose_target bfs e.2) = none := by
          rw [fsFind_eq_none_iff]
          intro f hf he2
          have hmem : f ∈ xmlWithKey st.files e.1 :=
            mem_xmlWithKey.mpr ⟨hf, he2 ▸ hbnf.1, he2 ▸ hbnf.2⟩
          rw [hempty] at hmem
          exact absurd hmem (List.not_mem_nil f)
        unfold contentOf
        rw [fsFind_append_none _ hfind0 rfl]
        rfl
    · rw [if_neg hcim]
      have hcf : cim = false := by
        cases cim
        · rfl
        · exact absurd rfl hcim
      refine ⟨herr, hfs, le_refl _, fun k _ => rfl, ?_⟩
      unfold BQ
      rw [hks]
      dsimp only
      exact hcf
  | cons t0 ts =>
    have htmem : choose_target st.files (t0 :: ts) ∈ t0 :: ts :=
      choose_target_mem st.files t0 ts
    have htnames : choose_target st.files (t0 :: ts) ∈
        (xmlWithKey st.files e.1).map File.name := by
      rw [hks]
      exact htmem
    obtain ⟨htx, htk, htsome⟩ := mem_names_xmlWithKey htnames
    rw [hks] at hidx
    simp only [bmsStep]
    rw [hidx]
    dsimp only
    rw [if_neg (List.not_mem_nil _), if_neg (List.not_mem_nil _)]
    by_cases heq : h (contentOf bfs (choose_target bfs e.2)) =
        h (contentOf st.files (choose_target st.files (t0 :: ts)))
    · rw [if_pos heq]
      refine ⟨herr, hfs, le_refl _, fun k _ => rfl, ?_⟩
      unfold BQ
      rw [hks]
      dsimp only
      exact heq
    · rw [if_neg heq]
      refine ⟨herr, ?_, Nat.le_succ _, ?_, ?_⟩
      · intro f hf
        unfold fsUpdate at hf
        obtain ⟨f0, hf0, hmap⟩ := List.mem_map.mp hf
        by_cases hn : f0.name = choose_target st.files (t0 :: ts)
        · rw [if_pos hn] at hmap
          rw [← hmap]
          exact Nat.lt_succ_self _
        · rw [if_neg hn] at hmap
          rw [← hmap]
          exact Nat.lt_succ_of_lt (hfs f0 hf0)
      · intro k hk
        exact xmlWithKey_fsUpdate_other
          (fun hc => hk (hc.2.symm.trans htk)) _ _
      · unfold BQ
        have hnames1 : (xmlWithKey (fsUpdate st.files
            (choose_target st.files (t0 :: ts))
            (contentOf bfs (choose_target bfs e.2)) st.clock) e.1).map
              File.name = t0 :: ts := by
          rw [xmlWithKey_fsUpdate, fsUpdate_names, hks]
        rw [hnames1]
        dsimp only
        have hct : choose_target (fsUpdate st.files
            (choose_target st.files (t0 :: ts))
            (contentOf bfs (choose_target bfs e.2)) st.clock) (t0 :: ts) =
            choose_target st.files (t0 :: ts) := by
          apply choose_target_strict_max _ _ _ _ htmem
          intro n hn hne
          have hmn : mtimeOf (fsUpdate st.files
              (choose_target st.files (t0 :: ts))
              (contentOf bfs (choose_target bfs e.2)) st.clock) n =
              mtimeOf st.files n := by
            unfold mtimeOf
            rw [fsFind_fsUpdate_ne hne]
          rw [hmn, mtimeOf_fsUpdate_self htsome]
          exact mtimeOf_lt_of_bound hfs hpos n
        rw [hct, contentOf_fsUpdate_self htsome]

theorem bmsRun_establish (h : Str → Str) (cim : Bool) (bfs : List File)
    (lIdx : List (Str × List Str)) :
    ∀ (entries : List (Str × List Str)) (st : BmsSt),
      st.err = none →
      (∀ f ∈ st.files, f.mtime < st.clock) →
      (∀ f ∈ bfs, f.mtime < st.clock) →
      0 < st.clock →
      (∀ e ∈ entries, EntryWf e) →
      (∀ e ∈ entries,
        idxGet lIdx e.1 = (xmlWithKey st.files e.1).map File.name) →
      (entries.map Prod.fst).Nodup →
      (bmsRun h [] cim bfs lIdx entries st).err = none ∧
      (∀ k, k ∉ entries.map Prod.fst →
        xmlWithKey (bmsRun h [] cim bfs lIdx entries st).files k =
          xmlWithKey st.files k) ∧
      (∀ e ∈ entries,
        BQ h cim bfs (bmsRun h [] cim bfs lIdx entries st).files e) := by
  intro entries
  induction entries with
  | nil =>
    intro st herr _ _ _ _ _ _
    exact ⟨herr, fun k _ => rfl, fun e he => absurd he (List.not_mem_nil e)⟩
  | cons e rest ih =>
    intro st herr hfs hbfs hpos hwf hidx hnd
    have hcons : bmsRun h [] cim bfs lIdx (e :: rest) st =
        bmsRun h [] cim bfs lIdx rest
          (if st.err.isSome then st else bmsStep h [] cim bfs lIdx st e) := rfl
    rw [hcons, if_neg (by rw [herr]; simp)]
    obtain ⟨herr1, hfs1, hle1, hframe1, hbq1⟩ :=
      bmsStep_establish h cim bfs lIdx st e herr hfs hbfs hpos
        (hwf e (List.mem_cons_self e rest))
        (hidx e (List.mem_cons_self e rest))
    have hnd1 := List.nodup_cons.mp (by
      rw [List.map_cons] at hnd
      exact hnd)
    have hkne : ∀ e2 ∈ rest, e2.1 ≠ e.1 := by
      intro e2 he2 hk
      exact hnd1.1 (hk ▸ List.mem_map_of_mem Prod.fst he2)
    obtain ⟨herr2, hframe2, hbq2⟩ := ih (bmsStep h [] cim bfs lIdx st e)
      herr1 hfs1
      (fun f hf => lt_of_lt_of_le (hbfs f hf) hle1)
      (lt_of_lt_of_le hpos hle1)
      (fun e2 he2 => hwf e2 (List.mem_cons_of_mem e he2))
      (fun e2 he2 => by
        rw [hidx e2 (List.mem_cons_of_mem e he2),
            hframe1 e2.1 (hkne e2 he2)])
      hnd1.2
    refine ⟨herr2, ?_, ?_⟩
    · intro k hk
      rw [List.map_cons, List.mem_cons] at hk
      push_neg at hk
      rw [hframe2 k hk.2, hframe1 k hk.1]
    · intro e2 he2
      rcases List.mem_cons.mp he2 with hh | hh
      · subst hh
        have hxfin : xmlWithKey (bmsStep h [] cim bfs lIdx st e2).files e2.1 =
            xmlWithKey (bmsRun h [] cim bfs lIdx rest
              (bmsStep h [] cim bfs lIdx st e2)).files e2.1 :=
          (hframe2 e2.1 hnd1.1).symm
        exact BQ_congr hxfin hbq1
      · exact hbq2 e2 hh

theorem bmsRun_noop (h : Str → Str) (cim : Bool) (bfs : List File)
    (lIdx2 : List (Str × List Str)) :
    ∀ (entries : List (Str × List Str)) (st : BmsSt),
      st.err = none →
      (∀ e ∈ entries,
        idxGet lIdx2 e.1 = (xmlWithKey st.files e.1).map File.name) →
      (∀ e ∈ entries, BQ h cim bfs st.files e) →
      (bmsRun h [] cim bfs lIdx2 entries st).files = st.files ∧
      (bmsRun h [] cim bfs lIdx2 entries st).restored = st.restored ∧
      (bmsRun h [] cim bfs lIdx2 entries st).err = none := by
  intro entries
  induction entries with
  | nil => intro st herr _ _; exact ⟨rfl, rfl, herr⟩
  | cons e rest ih =>
    intro st herr hidx hbq
    have hcons : bmsRun h [] cim bfs lIdx2 (e :: rest) st =
        bmsRun h [] cim bfs lIdx2 rest
          (if st.err.isSome then st else bmsStep h [] cim bfs lIdx2 st e) := rfl
    rw [hcons, if_neg (by rw [herr]; simp)]
    have hbqe := hbq e (List.mem_cons_self e rest)
    have hidxe := hidx e (List.mem_cons_self e rest)
    have hstep : (bmsStep h [] cim bfs lIdx2 st e).files = st.files ∧
        (bmsStep h [] cim bfs lIdx2 st e).restored = st.restored ∧
        (bmsStep h [] cim bfs lIdx2 st e).err = none := by
      unfold BQ at hbqe
      cases hks : (xmlWithKey st.files e.1).map File.name with
      | nil =>
        rw [hks] at hbqe hidxe
        dsimp only at hbqe
        simp only [bmsStep]
        rw [hidxe]
        dsimp only
        rw [if_neg (by rw [hbqe]; simp)]
        exact ⟨rfl, rfl, herr⟩
      | cons t0 ts =>
        rw [hks] at hbqe hidxe
        dsimp only at hbqe
        simp only [bmsStep]
        rw [hidxe]
        dsimp only
        rw [if_neg (List.not_mem_nil _), if_neg (List.not_mem_nil _),
            if_pos hbqe]
        exact ⟨rfl, rfl, herr⟩
    obtain ⟨hrf, hrr, hre⟩ := ih (bmsStep h [] cim bfs lIdx2 st e) hstep.2.2
      (fun e2 he2 => by
        rw [hidx e2 (List.mem_cons_of_mem e he2), hstep.1])
      (fun e2 he2 => by
        rw [hstep.1]
        exact hbq e2 (List.mem_cons_of_mem e he2))
    exact ⟨hrf.trans hstep.1, hrr.trans hstep.2.1, hre⟩

/-- bms idempotence: a second pass over the first pass's output restores
nothing. -/
theorem bms_second_run_zero (h : Str → Str) (cim : Bool)
    (bdir ldir : List File) (clock c2 : Nat)
    (hl : ∀ f ∈ ldir, f.mtime < clock)
    (hb : ∀ f ∈ bdir, f.mtime < clock)
    (hpos : 0 < clock) :
    (restore_from_backups h [] cim (some bdir)
      (some (restore_from_backups h [] cim (some bdir) (some ldir)
        clock).files) c2).restored = 0 := by
  obtain ⟨herr1, _, hbq1⟩ :=
    bmsRun_establish h cim bdir (build_index (some ldir))
      (build_index (some bdir)) (bmsInit ldir clock) rfl hl hb hpos
      build_index_entry_wf (fun e _ => idxGet_build_index_eq ldir e.1)
      (build_index_keys_nodup _)
  obtain ⟨_, hres2, _⟩ := bmsRun_noop h cim bdir
    (build_index (some (restore_from_backups h [] cim (some bdir)
      (some ldir) clock).files))
    (build_index (some bdir))
    (bmsInit (restore_from_backups h [] cim (some bdir)
      (some ldir) clock).files c2) rfl
    (fun e _ => idxGet_build_index_eq _ e.1)
    (fun e he => hbq1 e he)
  exact hres2

theorem ancestors_self_mem {ps : List Str} (hne : ps ≠ []) :
    ps ∈ ancestors ps := by
  unfold ancestors
  have hlen : 0 < ps.length := List.length_pos.mpr hne
  refine List.mem_map.mpr ⟨ps.length - 1, List.mem_range.mpr (by omega), ?_⟩
  rw [Nat.sub_add_cancel hlen]
  exact List.take_length ps

theorem eligible_facts {f : DFile} (he : dcsEligible f = true) :
    diffLuaLast2 f.name = true ∧ f.parent ≠ [] := by
  unfold dcsEligible at he
  simp only [Bool.and_eq_true, decide_eq_true_eq] at he
  refine ⟨he.2.1, ?_⟩
  intro hnil
  have := he.2.2.2
  rw [hnil] at this
  simp [lastComponent, toLowerStr] at this

def dpair (f : DFile) : List Str × Str := (f.parent, f.name)

theorem dcsUpdate_pairs (fs : List DFile) (tp : List Str) (tn c : Str)
    (m : Nat) : (dcsUpdate fs tp tn c m).map dpair = fs.map dpair := by
  rw [dcsUpdate_eq_map, List.map_map]
  apply List.map_congr_left
  intro f _
  unfold dpair
  rw [Function.comp_apply, dUpd_parent, dUpd_name]

/-- After a completed pass, eligible backup file `b`'s decision is
settled: either its folder is still missing (copy-if-missing off), its
key still has no live candidate (copy-if-missing off), or the chosen
live candidate hashes equal to `b`. -/
def DQ (h : Str → Str) (cim : Bool) (b : DFile) (dirs : List (List Str))
    (files : List DFile) : Prop :=
  (b.parent ∉ dirs ∧ cim = false) ∨
  (b.parent ∈ dirs ∧ candidatesFor files (dpairOf b) = [] ∧ cim = false) ∨
  (b.parent ∈ dirs ∧ ∃ c cs, candidatesFor files (dpairOf b) = c :: cs ∧
    h b.content = h (chooseFile (c :: cs)).content)

theorem DQ_transport {h : Str → Str} {cim : Bool} {b : DFile}
    {dirs1 dirs2 : List (List Str)} {files1 files2 : List DFile}
    (hq : DQ h cim b dirs1 files1)
    (hdm : ∀ d ∈ dirs1, d ∈ dirs2)
    (hdc : cim = false → dirs2 = dirs1)
    (hcf : candidatesFor files2 (dpairOf b) =
      candidatesFor files1 (dpairOf b)) :
    DQ h cim b dirs2 files2 := by
  rcases hq with ⟨hnd, hcim⟩ | ⟨hmem, hcand, hcim⟩ | ⟨hmem, c, cs, hcand, heq⟩
  · left
    rw [hdc hcim]
    exact ⟨hnd, hcim⟩
  · right
    left
    exact ⟨hdm _ hmem, hcf.trans hcand, hcim⟩
  · right
    right
    exact ⟨hdm _ hmem, c, cs, hcf.trans hcand, heq⟩

theorem dcsStep_establish (h : Str → Str) (cim : Bool) (b : DFile)
    (st : DcsSt)
    (herr : st.err = none)
    (hW1 : ∀ f ∈ st.files, f.mtime < st.clock)
    (hW3 : ∀ f ∈ st.files, f.parent ∈ st.dirs)
    (hW4 : (st.files.map dpair).Nodup)
    (hel : dcsEligible b = true)
    (hbm : b.mtime < st.clock) :
    (dcsStep h [] cim false b st).err = none ∧
    (∀ f ∈ (dcsStep h [] cim false b st).files,
      f.mtime < (dcsStep h [] cim false b st).clock) ∧
    (∀ f ∈ (dcsStep h [] cim false b st).files,
      f.parent ∈ (dcsStep h [] cim false b st).dirs) ∧
    ((dcsStep h [] cim false b st).files.map dpair).Nodup ∧
    st.clock ≤ (dcsStep h [] cim false b st).clock ∧
    (∀ d ∈ st.dirs, d ∈ (dcsStep h [] cim false b st).dirs) ∧
    (cim = false → (dcsStep h [] cim false b st).dirs = st.dirs) ∧
    (∀ pr, pr ≠ dpairOf b →
      candidatesFor (dcsStep h [] cim false b st).files pr =
        candidatesFor st.files pr) ∧
    DQ h cim b (dcsStep h [] cim false b st).dirs
      (dcsStep h [] cim false b st).files := by
  have hpairb : ∀ f ∈ st.files, dpair f = dpair b →
      f ∈ candidatesFor st.files (dpairOf b) := by
    intro f hf hp
    unfold dpair at hp
    have hp1 : f.parent = b.parent := congrArg Prod.fst hp
    have hp2 : f.name = b.name := congrArg Prod.snd hp
    unfold candidatesFor
    apply List.mem_filter.mpr
    refine ⟨hf, ?_⟩
    simp only [decide_eq_true_eq]
    exact ⟨hp1, by rw [hp2]; exact (eligible_facts hel).1,
      by rw [hp2]; rfl⟩
  simp only [dcsStep]
  by_cases hdir : b.parent ∈ st.dirs
  · rw [if_pos hdir]
    cases hcand : candidatesFor st.files (dpairOf b) with
    | nil =>
      dsimp only
      by_cases hcim : cim = true
      · rw [if_pos hcim]
        refine ⟨herr, ?_, ?_, ?_, le_refl _, fun d hd => hd, ?_, ?_, ?_⟩
        · intro f hf
          rcases List.mem_append.mp hf with hf | hf
          · exact hW1 f hf
          · rw [List.mem_singleton] at hf
            subst hf
            exact hbm
        · intro f hf
          rcases List.mem_append.mp hf with hf | hf
          · exact hW3 f hf
          · rw [List.mem_singleton] at hf
            subst hf
            exact hdir
        · rw [List.map_append]
          refine List.nodup_append.mpr ⟨hW4, by simp, ?_⟩
          intro p hp hp2
          rw [List.map_singleton, List.mem_singleton] at hp2
          obtain ⟨f, hf, hfp⟩ := List.mem_map.mp hp
          have hmem := hpairb f hf (by rw [hfp, hp2])
          rw [hcand] at hmem
          exact absurd hmem (List.not_mem_nil f)
        · intro hcf
          exact absurd (hcim.symm.trans hcf) (by simp)
        · intro pr hpr
          rw [candidatesFor_append, candidatesFor_single_other
            (fun hc => hpr hc.symm), List.append_nil]
        · right
          right
          refine ⟨hdir, b, [], ?_, rfl⟩
          rw [candidatesFor_append, hcand,
            candidatesFor_single_eligible hel, List.nil_append]
      · rw [if_neg hcim]
        have hcf : cim = false := by
          cases cim
          · rfl
          · exact absurd rfl hcim
        exact ⟨herr, hW1, hW3, hW4, le_refl _, fun d hd => hd,
          fun _ => rfl, fun pr _ => rfl,
          Or.inr (Or.inl ⟨hdir, hcand, hcf⟩)⟩
    | cons c cs =>
      dsimp only
      rw [if_neg (List.not_mem_nil _), if_neg (List.not_mem_nil _)]
      have htmem : chooseFile (c :: cs) ∈ candidatesFor st.files (dpairOf b) := by
        rw [hcand]
        exact chooseFile_mem c cs
      obtain ⟨htfs, htdp⟩ := mem_candidatesFor htmem
      by_cases heq : h b.content = h (chooseFile (c :: cs)).content
      · rw [if_pos heq]
        exact ⟨herr, hW1, hW3, hW4, le_refl _, fun d hd => hd,
          fun _ => rfl, fun pr _ => rfl,
          Or.inr (Or.inr ⟨hdir, c, cs, hcand, heq⟩)⟩
      · rw [if_neg heq, if_neg (by simp)]
        refine ⟨herr, ?_, ?_, ?_, Nat.le_succ _, fun d hd => hd,
          fun _ => rfl, ?_, ?_⟩
        · intro f hf
          rw [dcsUpdate_eq_map] at hf
          obtain ⟨f0, hf0, hmap⟩ := List.mem_map.mp hf
          unfold dUpd at hmap
          by_cases hc0 : f0.parent = (chooseFile (c :: cs)).parent ∧
              f0.name = (chooseFile (c :: cs)).name
          · rw [if_pos hc0] at hmap
            rw [← hmap]
            exact Nat.lt_succ_self _
          · rw [if_neg hc0] at hmap
            rw [← hmap]
            exact Nat.lt_succ_of_lt (hW1 f0 hf0)
        · intro f hf
          rw [dcsUpdate_eq_map] at hf
          obtain ⟨f0, hf0, hmap⟩ := List.mem_map.mp hf
          rw [← hmap, dUpd_parent]
          exact hW3 f0 hf0
        · rw [dcsUpdate_pairs]
          exact hW4
        · intro pr hpr
          apply candidatesFor_dcsUpdate_other
          intro hcon
          have hcon2 : dpairOf (chooseFile (c :: cs)) = pr := hcon
          exact Ne.symm hpr (htdp ▸ hcon2)
        · right
          right
          refine ⟨hdir, dUpd (chooseFile (c :: cs)).parent
            (chooseFile (c :: cs)).name b.content st.clock c,
            cs.map (dUpd (chooseFile (c :: cs)).parent
              (chooseFile (c :: cs)).name b.content st.clock), ?_, ?_⟩
          · rw [candidatesFor_dcsUpdate, hcand, List.map_cons]
          · rw [← List.map_cons]
            have htU : dUpd (chooseFile (c :: cs)).parent
                (chooseFile (c :: cs)).name b.content st.clock
                (chooseFile (c :: cs)) =
                ⟨(chooseFile (c :: cs)).parent, (chooseFile (c :: cs)).name,
                  b.content, st.clock⟩ := by
              unfold dUpd
              rw [if_pos ⟨rfl, rfl⟩]
            have hch : chooseFile ((c :: cs).map
                (dUpd (chooseFile (c :: cs)).parent
                  (chooseFile (c :: cs)).name b.content st.clock)) =
                ⟨(chooseFile (c :: cs)).parent, (chooseFile (c :: cs)).name,
                  b.content, st.clock⟩ := by
              rw [List.map_cons]
              apply chooseFile_strict_max
              · rw [← List.map_cons, ← htU]
                exact List.mem_map_of_mem _ (chooseFile_mem c cs)
              · intro q hq hqne
                rw [← List.map_cons] at hq
                obtain ⟨x, hx, hxq⟩ := List.mem_map.mp hq
                have hxfs : x ∈ st.files := by
                  have hx2 : x ∈ candidatesFor st.files (dpairOf b) := by
                    rw [hcand]
                    exact hx
                  exact (mem_candidatesFor hx2).1
                unfold dUpd at hxq
                by_cases hc0 : x.parent = (chooseFile (c :: cs)).parent ∧
                    x.name = (chooseFile (c :: cs)).name
                · exfalso
                  have hxt : x = chooseFile (c :: cs) := by
                    apply List.inj_on_of_nodup_map hW4 hxfs htfs
                    unfold dpair
                    rw [hc0.1, hc0.2]
                  rw [if_pos hc0] at hxq
                  apply hqne
                  rw [← hxq, hc0.1, hc0.2]
                · rw [if_neg hc0] at hxq
                  rw [← hxq]
                  exact hW1 x hxfs
            rw [hch]
  · rw [if_neg hdir]
    have hcand0 : candidatesFor st.files (dpairOf b) = [] := by
      cases hc : candidatesFor st.files (dpairOf b) with
      | nil => rfl
      | cons x xs =>
        exfalso
        have hx : x ∈ candidatesFor st.files (dpairOf b) := by
          rw [hc]
          exact List.mem_cons_self x xs
        obtain ⟨hxm, hxd⟩ := mem_candidatesFor hx
        have hxp : x.parent = b.parent := congrArg Prod.fst hxd
        exact hdir (hxp ▸ hW3 x hxm)
    by_cases hcim : cim = true
    · rw [if_pos hcim]
      have hanc : b.parent ∈ st.dirs ++ ancestors b.parent :=
        List.mem_append_right _
          (ancestors_self_mem (eligible_facts hel).2)
      refine ⟨herr, ?_, ?_, ?_, le_refl _, fun d hd =>
        List.mem_append_left _ hd, ?_, ?_, ?_⟩
      · intro f hf
        rcases List.mem_append.mp hf with hf | hf
        · exact hW1 f hf
        · rw [List.mem_singleton] at hf
          subst hf
          exact hbm
      · intro f hf
        rcases List.mem_append.mp hf with hf | hf
        · exact List.mem_append_left _ (hW3 f hf)
        · rw [List.mem_singleton] at hf
          subst hf
          exact hanc
      · rw [List.map_append]
        refine List.nodup_append.mpr ⟨hW4, by simp, ?_⟩
        intro p hp hp2
        rw [List.map_singleton, List.mem_singleton] at hp2
        obtain ⟨f, hf, hfp⟩ := List.mem_map.mp hp
        have hmem := hpairb f hf (by rw [hfp, hp2])
        rw [hcand0] at hmem
        exact absurd hmem (List.not_mem_nil f)
      · intro hcf
        exact absurd (hcim.symm.trans hcf) (by simp)
      · intro pr hpr
        rw [candidatesFor_append, candidatesFor_single_other
          (fun hc => hpr hc.symm), List.append_nil]
      · right
        right
        refine ⟨hanc, b, [], ?_, rfl⟩
        rw [candidatesFor_append, hcand0,
          candidatesFor_single_eligible hel, List.nil_append]
    · rw [if_neg hcim]
      have hcf : cim = false := by
        cases cim
        · rfl
        · exact absurd rfl hcim
      exact ⟨herr, hW1, hW3, hW4, le_refl _, fun d hd => hd,
        fun _ => rfl, fun pr _ => rfl, Or.inl ⟨hdir, hcf⟩⟩

theorem dcsRun_establish (h : Str → Str) (cim : Bool) :
    ∀ (bl : List DFile) (st : DcsSt),
      st.err = none →
      (∀ f ∈ st.files, f.mtime < st.clock) →
      (∀ f ∈ st.files, f.parent ∈ st.dirs) →
      ((st.files.map dpair).Nodup) →
      (∀ b ∈ bl, dcsEligible b = true) →
      (∀ b ∈ bl, b.mtime < st.clock) →
      bl.Pairwise (fun a b => dpairOf a ≠ dpairOf b) →
      (dcsRun h [] cim false bl st).err = none ∧
      (∀ d ∈ st.dirs, d ∈ (dcsRun h [] cim false bl st).dirs) ∧
      (cim = false → (dcsRun h [] cim false bl st).dirs = st.dirs) ∧
      (∀ pr, pr ∉ bl.map dpairOf →
        candidatesFor (dcsRun h [] cim false bl st).files pr =
          candidatesFor st.files pr) ∧
      (∀ b ∈ bl, DQ h cim b (dcsRun h [] cim false bl st).dirs
        (dcsRun h [] cim false bl st).files) := by
  intro bl
  induction bl with
  | nil =>
    intro st herr _ _ _ _ _ _
    exact ⟨herr, fun d hd => hd, fun _ => rfl, fun pr _ => rfl,
      fun b hb => absurd hb (List.not_mem_nil b)⟩
  | cons b rest ih =>
    intro st herr hW1 hW3 hW4 hel hbm hpw
    have hcons : dcsRun h [] cim false (b :: rest) st =
        dcsRun h [] cim false rest
          (if st.err.isSome then st else dcsStep h [] cim false b st) := rfl
    rw [hcons, if_neg (by rw [herr]; simp)]
    obtain ⟨herr1, hW11, hW31, hW41, hle1, hdm1, hdc1, hfr1, hdq1⟩ :=
      dcsStep_establish h cim b st herr hW1 hW3 hW4
        (hel b (List.mem_cons_self b rest))
        (hbm b (List.mem_cons_self b rest))
    have hpw1 := List.pairwise_cons.mp hpw
    obtain ⟨herr2, hdm2, hdc2, hfr2, hdq2⟩ := ih (dcsStep h [] cim false b st)
      herr1 hW11 hW31 hW41
      (fun b2 hb2 => hel b2 (List.mem_cons_of_mem b hb2))
      (fun b2 hb2 => lt_of_lt_of_le (hbm b2 (List.mem_cons_of_mem b hb2)) hle1)
      hpw1.2
    have hbnr : dpairOf b ∉ rest.map dpairOf := by
      intro hmem
      obtain ⟨b2, hb2, hb2e⟩ := List.mem_map.mp hmem
      exact hpw1.1 b2 hb2 hb2e.symm
    refine ⟨herr2, ?_, ?_, ?_, ?_⟩
    · intro d hd
      exact hdm2 d (hdm1 d hd)
    · intro hcf
      rw [hdc2 hcf, hdc1 hcf]
    · intro pr hpr
      rw [List.map_cons, List.mem_cons] at hpr
      push_neg at hpr
      rw [hfr2 pr hpr.2, hfr1 pr hpr.1]
    · intro b2 hb2
      rcases List.mem_cons.mp hb2 with hh | hh
      · subst hh
        exact DQ_transport hdq1 hdm2 hdc2 (hfr2 _ hbnr)
      · exact hdq2 b2 hh

theorem dcsRun_noop (h : Str → Str) (cim : Bool) :
    ∀ (bl : List DFile) (st : DcsSt),
      st.err = none →
      (∀ b ∈ bl, DQ h cim b st.dirs st.files) →
      (dcsRun h [] cim false bl st).files = st.files ∧
      (dcsRun h [] cim false bl st).dirs = st.dirs ∧
      (dcsRun h [] cim false bl st).restored = st.restored ∧
      (dcsRun h [] cim false bl st).err = none := by
  intro bl
  induction bl with
  | nil => intro st herr _; exact ⟨rfl, rfl, rfl, herr⟩
  | cons b rest ih =>
    intro st herr hdq
    have hcons : dcsRun h [] cim false (b :: rest) st =
        dcsRun h [] cim false rest
          (if st.err.isSome then st else dcsStep h [] cim false b st) := rfl
    rw [hcons, if_neg (by rw [herr]; simp)]
    have hstep : (dcsStep h [] cim false b st).files = st.files ∧
        (dcsStep h [] cim false b st).dirs = st.dirs ∧
        (dcsStep h [] cim false b st).restored = st.restored ∧
        (dcsStep h [] cim false b st).err = none := by
      rcases hdq b (List.mem_cons_self b rest) with
        ⟨hnd, hcim⟩ | ⟨hmem, hcand, hcim⟩ | ⟨hmem, c, cs, hcand, heq⟩
      · simp only [dcsStep]
        rw [if_neg hnd]
        rw [if_neg (by rw [hcim]; simp)]
        exact ⟨rfl, rfl, rfl, herr⟩
      · simp only [dcsStep]
        rw [if_pos hmem, hcand]
        dsimp only
        rw [if_neg (by rw [hcim]; simp)]
        exact ⟨rfl, rfl, rfl, herr⟩
      · simp only [dcsStep]
        rw [if_pos hmem, hcand]
        dsimp only
        rw [if_neg (List.not_mem_nil _), if_neg (List.not_mem_nil _),
            if_pos heq]
        exact ⟨rfl, rfl, rfl, herr⟩
    obtain ⟨hrf, hrd, hrr, hre⟩ := ih (dcsStep h [] cim false b st)
      hstep.2.2.2
      (fun b2 hb2 => by
        rw [hstep.1, hstep.2.1]
        exact hdq b2 (List.mem_cons_of_mem b hb2))
    exact ⟨hrf.trans hstep.1, hrd.trans hstep.2.1,
      hrr.trans hstep.2.2.1, hre⟩

/-- dcs idempotence under pairwise-distinct backup keys: a second pass
over the first pass's output restores nothing. -/
theorem dcs_second_run_zero (h : Str → Str) (cim : Bool) (bfs lfs : DcsFs)
    (clock c2 : Nat)
    (hl : ∀ f ∈ lfs.files, f.mtime < clock)
    (hb : ∀ f ∈ bfs.files, f.mtime < clock)
    (hwf : ∀ f ∈ lfs.files, f.parent ∈ lfs.dirs)
    (hnd : (lfs.files.map dpair).Nodup)
    (hpw : (bfs.files.filter dcsEligible).Pairwise
      (fun a b => dpairOf a ≠ dpairOf b)) :
    (restore_dcs h [] cim false (some bfs)
      (some ⟨(restore_dcs h [] cim false (some bfs) (some lfs) clock).dirs,
             (restore_dcs h [] cim false (some bfs) (some lfs) clock).files⟩)
      c2).restored = 0 := by
  obtain ⟨herr1, _, _, _, hdq1⟩ := dcsRun_establish h cim
    (bfs.files.filter dcsEligible) (dcsInit lfs clock) rfl hl hwf hnd
    (fun b hb2 => List.of_mem_filter hb2)
    (fun b hb2 => hb b (List.mem_of_mem_filter hb2))
    hpw
  obtain ⟨_, _, hres, _⟩ := dcsRun_noop h cim (bfs.files.filter dcsEligible)
    (dcsInit ⟨(restore_dcs h [] cim false (some bfs) (some lfs) clock).dirs,
              (restore_dcs h [] cim false (some bfs) (some lfs) clock).files⟩
      c2) rfl
    (fun b hb2 => hdq1 b hb2)
  exact hres

/-- Backup tree for C7's counterexample: two eligible backup files share
the `(folder, key)` pair `(joystick, A)` with different contents. -/
def c7bak : DcsFs :=
  ⟨[["joystick".data]],
   [⟨["joystick".data],
     "A {11111111-1111-1111-1111-111111111111}.diff.lua".data, "x".data, 0⟩,
    ⟨["joystick".data],
     "A {22222222-2222-2222-2222-222222222222}.diff.lua".data, "y".data, 0⟩]⟩

/-- Live tree for C7's counterexample: one target for key `A`. -/
def c7liv : DcsFs :=
  ⟨[["joystick".data]],
   [⟨["joystick".data],
     "A {33333333-3333-3333-3333-333333333333}.diff.lua".data, "t".data, 0⟩]⟩

/-- The first (non-dry) dcs run of C7's counterexample. -/
def c7run1 : DcsSt := restore_dcs id [] false false (some c7bak) (some c7liv) 1

/-- Claim C7, counterexample.  Two eligible backup files share the key
`A`; each non-dry dcs run restores the shared target twice (the loop
iterates backup files, not deduplicated keys, and the first restore
changes the bytes the second comparison reads).  A second run over the
first run's output — with no live-side change in between — again yields
`restored = 2`, not `0`: the reconciler is not idempotent. -/
theorem claim_C7_counterexample :
    (restore_dcs id [] false false (some c7bak)
      (some ⟨c7run1.dirs, c7run1.files⟩) 10).restored = 2 ∧
    (restore_dcs id [] false false (some c7bak)
      (some ⟨c7run1.dirs, c7run1.files⟩) 10).restored ≠ 0 := by
  constructor <;> decide

/-- Claim C7, amended.  The bms reconciler is idempotent: a second
non-dry run over the first run's output (backup tree unchanged, no
live-side change in between, all pre-run mtimes below the first run's
clock) yields `restored = 0` — its loop iterates deduplicated index
keys.  The dcs reconciler is idempotent only when no two eligible
backup files share a `(folder, key)` pair (with duplicates a live run
restores the shared target once per duplicate on *every* run, see the
counterexample); under that hypothesis, plus the file-system hygiene
facts that live files sit in existing directories under unique
`(parent, name)` paths, its second run likewise yields
`restored = 0`. -/
theorem claim_C7 (h hdc : Str → Str) (cim cimd : Bool)
    (bdir ldir : List File) (clock c2 : Nat)
    (bfs lfs : DcsFs) (clockd c2d : Nat)
    (hl : ∀ f ∈ ldir, f.mtime < clock)
    (hb : ∀ f ∈ bdir, f.mtime < clock)
    (hpos : 0 < clock)
    (hdl : ∀ f ∈ lfs.files, f.mtime < clockd)
    (hdb : ∀ f ∈ bfs.files, f.mtime < clockd)
    (hwf : ∀ f ∈ lfs.files, f.parent ∈ lfs.dirs)
    (hnd : (lfs.files.map dpair).Nodup)
    (hpw : (bfs.files.filter dcsEligible).Pairwise
      (fun a b => dpairOf a ≠ dpairOf b)) :
    (restore_from_backups h [] cim (some bdir)
      (some (restore_from_backups h [] cim (some bdir) (some ldir)
        clock).files) c2).restored = 0 ∧
    (restore_dcs hdc [] cimd false (some bfs)
      (some ⟨(restore_dcs hdc [] cimd false (some bfs) (some lfs)
          clockd).dirs,
        (restore_dcs hdc [] cimd false (some bfs) (some lfs)
          clockd).files⟩) c2d).restored = 0 :=
  ⟨bms_second_run_zero h cim bdir ldir clock c2 hl hb hpos,
   dcs_second_run_zero hdc cimd bfs lfs clockd c2d hdl hdb hwf hnd hpw⟩

/-- bms backup dir for C7's witness. -/
def c7wbdir : List File :=
  [⟨"A {11111111-1111-1111-1111-111111111111}.xml".data, "x".data, 0⟩]

/-- bms live dir for C7's witness. -/
def c7wldir : List File :=
  [⟨"A {22222222-2222-2222-2222-222222222222}.xml".data, "t".data, 0⟩]

/-- dcs backup tree for C7's witness (a single eligible backup file, so
the pairwise-distinct-keys hypothesis holds). -/
def c7wbak : DcsFs :=
  ⟨[["joystick".data]],
   [⟨["joystick".data],
     "B {11111111-1111-1111-1111-111111111111}.diff.lua".data, "x".data, 0⟩]⟩

/-- dcs live tree for C7's witness. -/
def c7wliv : DcsFs :=
  ⟨[["joystick".data]],
   [⟨["joystick".data],
     "B {33333333-3333-3333-3333-333333333333}.diff.lua".data, "t".data, 0⟩]⟩

/-- Witness for C7 at concrete inputs. -/
theorem claim_C7_witness :
    (restore_from_backups id [] false (some c7wbdir)
      (some (restore_from_backups id [] false (some c7wbdir)
        (some c7wldir) 1).files) 5).restored = 0 ∧
    (restore_dcs id [] false false (some c7wbak)
      (some ⟨(restore_dcs id [] false false (some c7wbak) (some c7wliv)
          1).dirs,
        (restore_dcs id [] false false (some c7wbak) (some c7wliv)
          1).files⟩) 5).restored = 0 :=
  claim_C7 id id false false c7wbdir c7wldir 1 5 c7wbak c7wliv 1 5
    (by decide) (by decide) (by decide) (by decide) (by decide)
    (by decide) (by decide) (by decide)

theorem dcsRun_halt (h : Str → Str) (bad : List (List Str × Str))
    (cim dry : Bool) (bfiles : List DFile) (st : DcsSt)
    (he : st.err.isSome) : dcsRun h bad cim dry bfiles st = st := by
  induction bfiles with
  | nil => rfl
  | cons b bs ih =>
    unfold dcsRun
    rw [List.foldl_cons, if_pos he]
    exact ih

theorem dcsRun_append (h : Str → Str) (bad : List (List Str × Str))
    (cim dry : Bool) (l₁ l₂ : List DFile) (st : DcsSt) :
    dcsRun h bad cim dry (l₁ ++ l₂) st =
      dcsRun h bad cim dry l₂ (dcsRun h bad cim dry l₁ st) := by
  unfold dcsRun
  exact List.foldl_append _ _ _ _

/-- Backup directory used by C3's counterexample. -/
def c3bak : List File :=
  [⟨"A {11111111-1111-1111-1111-111111111111}.xml".data, "x".data, 1⟩,
   ⟨"B {22222222-2222-2222-2222-222222222222}.xml".data, "y".data, 1⟩]

/-- Live directory used by C3's counterexample. -/
def c3liv : List File :=
  [⟨"A {33333333-3333-3333-3333-333333333333}.xml".data, "p".data, 2⟩,
   ⟨"B {44444444-4444-4444-4444-444444444444}.xml".data, "q".data, 2⟩]

/-- dcs backup tree used by C3's counterexample. -/
def c3dbak : DcsFs :=
  ⟨[["joystick".data]],
   [⟨["joystick".data],
     "A {11111111-1111-1111-1111-111111111111}.diff.lua".data, "x".data, 1⟩,
    ⟨["joystick".data],
     "B {22222222-2222-2222-2222-222222222222}.diff.lua".data, "y".data, 1⟩]⟩

/-- dcs live tree used by C3's counterexample. -/
def c3dliv : DcsFs :=
  ⟨[["joystick".data]],
   [⟨["joystick".data],
     "A {33333333-3333-3333-3333-333333333333}.diff.lua".data, "p".data, 2⟩,
    ⟨["joystick".data],
     "B {44444444-4444-4444-4444-444444444444}.diff.lua".data, "q".data, 2⟩]⟩

/-- Claim C3, counterexample.  In both passes, with two backup keys `A`
and `B` and an I/O failure injected while hashing key `A`'s live target,
the pass does not catch, count and continue: it aborts with the
propagating `OSError`, records no decision at all, and never processes
key `B` (whose content-mismatched target is left untouched).  The first
three conjuncts are the bms pass, the last three the dcs pass. -/
theorem claim_C3_counterexample :
    (restore_from_backups id
        ["A {33333333-3333-3333-3333-333333333333}.xml".data] false
        (some c3bak) (some c3liv) 10).err =
      some (.ioError ("A {33333333-3333-3333-3333-333333333333}.xml".data)) ∧
    (restore_from_backups id
        ["A {33333333-3333-3333-3333-333333333333}.xml".data] false
        (some c3bak) (some c3liv) 10).decisions = [] ∧
    (restore_from_backups id
        ["A {33333333-3333-3333-3333-333333333333}.xml".data] false
        (some c3bak) (some c3liv) 10).files = c3liv ∧
    (restore_dcs id
        [(["joystick".data],
          "A {33333333-3333-3333-3333-333333333333}.diff.lua".data)]
        false false (some c3dbak) (some c3dliv) 10).err =
      some (.ioError
        ("A {33333333-3333-3333-3333-333333333333}.diff.lua".data)) ∧
    (restore_dcs id
        [(["joystick".data],
          "A {33333333-3333-3333-3333-333333333333}.diff.lua".data)]
        false false (some c3dbak) (some c3dliv) 10).decisions = [] ∧
    (restore_dcs id
        [(["joystick".data],
          "A {33333333-3333-3333-3333-333333333333}.diff.lua".data)]
        false false (some c3dbak) (some c3dliv) 10).files =
      c3dliv.files := by
  refine ⟨?_, ?_, ?_, ?_, ?_, ?_⟩ <;> decide

/-- Claim C3, amended.  A per-key I/O failure is *not* caught at the
reconciler boundary in either pass: once an exception is propagating the
loop processes nothing further, and a hashing failure on one key's
backup or target aborts the whole pass at that point — the keys after it
are never processed and the run ends with the error, the state being
exactly the state reached before the failing key.  Conjuncts one and two
are `restore_from_backups`'s loop, three and four `restore_dcs`'s. -/
theorem claim_C3 (h : Str → Str) (bad : List Str) (cim : Bool)
    (bfs : List File) (lIdx : List (Str × List Str))
    (pre post : List (Str × List Str)) (entry : Str × List Str)
    (st₀ : BmsSt)
    (hdc : Str → Str) (badd : List (List Str × Str)) (cimd dry : Bool)
    (dpre dpost : List DFile) (b : DFile) (dst₀ : DcsSt) :
    (∀ st : BmsSt, st.err.isSome →
      bmsRun h bad cim bfs lIdx post st = st) ∧
    ((bmsRun h bad cim bfs lIdx pre st₀).err = none →
      idxGet lIdx entry.1 ≠ [] →
      (choose_target bfs entry.2 ∈ bad ∨
        choose_target (bmsRun h bad cim bfs lIdx pre st₀).files
          (idxGet lIdx entry.1) ∈ bad) →
      ∃ n ∈ bad,
        bmsRun h bad cim bfs lIdx (pre ++ entry :: post) st₀ =
          { bmsRun h bad cim bfs lIdx pre st₀ with
              err := some (.ioError n) }) ∧
    (∀ st : DcsSt, st.err.isSome →
      dcsRun hdc badd cimd dry dpost st = st) ∧
    ((dcsRun hdc badd cimd dry dpre dst₀).err = none →
      b.parent ∈ (dcsRun hdc badd cimd dry dpre dst₀).dirs →
      candidatesFor (dcsRun hdc badd cimd dry dpre dst₀).files
        (dpairOf b) ≠ [] →
      ((b.parent, b.name) ∈ badd ∨
        ((chooseFile (candidatesFor
            (dcsRun hdc badd cimd dry dpre dst₀).files (dpairOf b))).parent,
         (chooseFile (candidatesFor
            (dcsRun hdc badd cimd dry dpre dst₀).files (dpairOf b))).name)
          ∈ badd) →
      ∃ p ∈ badd,
        dcsRun hdc badd cimd dry (dpre ++ b :: dpost) dst₀ =
          { dcsRun hdc badd cimd dry dpre dst₀ with
              err := some (.ioError p.2) }) := by
  refine ⟨?_, ?_, ?_, ?_⟩
  · intro st he
    exact bmsRun_halt h bad cim bfs lIdx post st he
  · intro herr hne hbad
    set st₁ := bmsRun h bad cim bfs lIdx pre st₀ with hst₁
    have hstep : bmsRun h bad cim bfs lIdx (pre ++ entry :: post) st₀ =
        bmsRun h bad cim bfs lIdx post
          (if st₁.err.isSome then st₁
           else bmsStep h bad cim bfs lIdx st₁ entry) := by
      rw [bmsRun_append]
      rw [← hst₁]
      unfold bmsRun
      rw [List.foldl_cons]
    rw [herr] at hstep
    simp only [Option.isSome_none, Bool.false_eq_true, if_false] at hstep
    cases hidx : idxGet lIdx entry.1 with
    | nil => exact absurd hidx hne
    | cons t0 ts =>
      by_cases hb : choose_target bfs entry.2 ∈ bad
      · refine ⟨choose_target bfs entry.2, hb, ?_⟩
        have hstep2 : bmsStep h bad cim bfs lIdx st₁ entry =
            { st₁ with
                err := some (.ioError (choose_target bfs entry.2)) } := by
          unfold bmsStep
          rw [hidx]
          simp only [if_pos hb]
        rw [hstep, hstep2]
        exact bmsRun_halt h bad cim bfs lIdx post _ (by simp)
      · have ht : choose_target st₁.files (t0 :: ts) ∈ bad := by
          rcases hbad with h1 | h1
          · exact absurd h1 hb
          · rw [hidx] at h1
            exact h1
        refine ⟨choose_target st₁.files (t0 :: ts), ht, ?_⟩
        have hstep2 : bmsStep h bad cim bfs lIdx st₁ entry =
            { st₁ with
                err := some (.ioError
                  (choose_target st₁.files (t0 :: ts))) } := by
          unfold bmsStep
          rw [hidx]
          simp only [if_neg hb, if_pos ht]
        rw [hstep, hstep2]
        exact bmsRun_halt h bad cim bfs lIdx post _ (by simp)
  · intro st he
    exact dcsRun_halt hdc badd cimd dry dpost st he
  · intro herr hdir hne hbad
    set st₁ := dcsRun hdc badd cimd dry dpre dst₀ with hst₁
    have hstep : dcsRun hdc badd cimd dry (dpre ++ b :: dpost) dst₀ =
        dcsRun hdc badd cimd dry dpost
          (if st₁.err.isSome then st₁
           else dcsStep hdc badd cimd dry b st₁) := by
      rw [dcsRun_append]
      rw [← hst₁]
      unfold dcsRun
      rw [List.foldl_cons]
    rw [herr] at hstep
    simp only [Option.isSome_none, Bool.false_eq_true, if_false] at hstep
    cases hcand : candidatesFor st₁.files (dpairOf b) with
    | nil => exact absurd hcand hne
    | cons c cs =>
      rw [hcand] at hbad
      by_cases hbb : (b.parent, b.name) ∈ badd
      · refine ⟨(b.parent, b.name), hbb, ?_⟩
        have hstep2 : dcsStep hdc badd cimd dry b st₁ =
            { st₁ with err := some (.ioError b.name) } := by
          unfold dcsStep
          rw [if_pos hdir, hcand]
          dsimp only
          rw [if_pos hbb]
        rw [hstep, hstep2]
        exact dcsRun_halt hdc badd cimd dry dpost _ (by simp)
      · have ht : ((chooseFile (c :: cs)).parent,
            (chooseFile (c :: cs)).name) ∈ badd := by
          rcases hbad with h1 | h1
          · exact absurd h1 hbb
          · exact h1
        refine ⟨((chooseFile (c :: cs)).parent,
          (chooseFile (c :: cs)).name), ht, ?_⟩
        have hstep2 : dcsStep hdc badd cimd dry b st₁ =
            { st₁ with
                err := some (.ioError (chooseFile (c :: cs)).name) } := by
          unfold dcsStep
          rw [if_pos hdir, hcand]
          dsimp only
          rw [if_neg hbb, if_pos ht]
        rw [hstep, hstep2]
        exact dcsRun_halt hdc badd cimd dry dpost _ (by simp)

/-- Backup directory for C3's witness. -/
def c3wbfs : List File :=
  [⟨"B {66666666-6666-6666-6666-666666666666}.xml".data, "x".data, 1⟩]

/-- Live index for C3's witness. -/
def c3wIdx : List (Str × List Str) :=
  [("B".data, ["T {55555555-5555-5555-5555-555555555555}.xml".data]),
   ("C".data, ["U {77777777-7777-7777-7777-777777777777}.xml".data])]

/-- Initial state for C3's witness. -/
def c3wSt : BmsSt :=
  bmsInit
    [⟨"T {55555555-5555-5555-5555-555555555555}.xml".data, "p".data, 2⟩,
     ⟨"U {77777777-7777-7777-7777-777777777777}.xml".data, "q".data, 2⟩] 5

/-- dcs failing backup file for C3's witness. -/
def c3wdB : DFile :=
  ⟨["joystick".data],
   "D {11111111-1111-1111-1111-111111111111}.diff.lua".data, "x".data, 1⟩

/-- dcs follow-up backup file for C3's witness (never processed). -/
def c3wdB2 : DFile :=
  ⟨["joystick".data],
   "E {22222222-2222-2222-2222-222222222222}.diff.lua".data, "y".data, 1⟩

/-- dcs initial state for C3's witness. -/
def c3wdSt : DcsSt :=
  dcsInit
    ⟨[["joystick".data]],
     [⟨["joystick".data],
       "D {33333333-3333-3333-3333-333333333333}.diff.lua".data,
       "t".data, 2⟩,
      ⟨["joystick".data],
       "E {44444444-4444-4444-4444-444444444444}.diff.lua".data,
       "u".data, 2⟩]⟩ 5

/-- Witness for C3's amended theorem at concrete inputs: in each pass,
one failing key followed by one further key; each run aborts with the
propagating error. -/
theorem claim_C3_witness :
    (bmsRun id ["T {55555555-5555-5555-5555-555555555555}.xml".data] false
        c3wbfs c3wIdx
        ([] ++ ("B".data,
            ["B {66666666-6666-6666-6666-666666666666}.xml".data]) ::
          [("C".data,
            ["U {77777777-7777-7777-7777-777777777777}.xml".data])])
        c3wSt).err =
      some (.ioError
        ("T {55555555-5555-5555-5555-555555555555}.xml".data)) ∧
    (dcsRun id
        [(["joystick".data],
          "D {33333333-3333-3333-3333-333333333333}.diff.lua".data)]
        false false ([] ++ c3wdB :: [c3wdB2]) c3wdSt).err =
      some (.ioError
        ("D {33333333-3333-3333-3333-333333333333}.diff.lua".data)) := by
  constructor
  · obtain ⟨n, hn, heq⟩ :=
      (claim_C3 id
        ["T {55555555-5555-5555-5555-555555555555}.xml".data] false
        c3wbfs c3wIdx
        [] [("C".data, ["U {77777777-7777-7777-7777-777777777777}.xml".data])]
        ("B".data, ["B {66666666-6666-6666-6666-666666666666}.xml".data])
        c3wSt id
        [(["joystick".data],
          "D {33333333-3333-3333-3333-333333333333}.diff.lua".data)]
        false false [] [c3wdB2] c3wdB c3wdSt).2.1
        (by decide) (by decide) (by decide)
    rw [heq]
    have hn2 : n = "T {55555555-5555-5555-5555-555555555555}.xml".data := by
      simpa using hn
    rw [hn2]
  · obtain ⟨p, hp, heq⟩ :=
      (claim_C3 id
        ["T {55555555-5555-5555-5555-555555555555}.xml".data] false
        c3wbfs c3wIdx
        [] [("C".data, ["U {77777777-7777-7777-7777-777777777777}.xml".data])]
        ("B".data, ["B {66666666-6666-6666-6666-666666666666}.xml".data])
        c3wSt id
        [(["joystick".data],
          "D {33333333-3333-3333-3333-333333333333}.diff.lua".data)]
        false false [] [c3wdB2] c3wdB c3wdSt).2.2.2
        (by decide) (by decide) (by decide) (by decide)
    rw [heq]
    have hp2 : p = (["joystick".data],
        "D {33333333-3333-3333-3333-333333333333}.diff.lua".data) := by
      simpa using hp
    rw [hp2]

end RJX
